import Mathlib

/-!
# Enigma machine: shallow embedding of `enigma.h` and `utilities.cpp`

C++ `int` values are modelled as `Int`; every property below is stated for
positions in `[0,26)` and letters `'A'..'Z'` (codes 65..90), where no machine
overflow can arise.  A `char` is modelled by its integer code.  A C array of 26
cells is a total function on `Fin 26`; an access `a[i]` with an `int` index is
`index26 a i`, which is `none` exactly when `i` lies outside `[0,26)`.  A
function returns `none` as soon as one of its accesses is out of range.  The
blocks guarded by `DEBUG` only print and are left out.  A `std::string` is a
`String` whose characters stand for single `char`s.
-/

namespace EnigmaSim

/-- Read of cell `i` of a 26-cell array; `none` when the index is out of range. -/
def index26 {α : Type} (a : Fin 26 → α) (i : Int) : Option α :=
  if h : 0 ≤ i ∧ i < 26 then some (a ⟨i.toNat, by omega⟩) else none

/-- The class `Rotor`: current start position, wiring `int mapping[26]` and
`bool notch[26]`. -/
structure Rotor where
  start_pos : Int
  mapping : Fin 26 → Int
  notch : Fin 26 → Bool

namespace Rotor

/-- `Rotor::set_start_pos`. -/
def set_start_pos (r : Rotor) (new_start_pos : Int) : Rotor :=
  { r with start_pos := new_start_pos }

/-- `Rotor::forward_map`. -/
def forward_map (r : Rotor) (input_pos : Int) : Option Int := do
  let char_at_input_pos := (input_pos + r.start_pos).tmod 26
  let mapped_char_index ← index26 r.mapping char_at_input_pos
  if r.start_pos > mapped_char_index then
    pure ((mapped_char_index - r.start_pos) + 26)
  else
    pure (mapped_char_index - r.start_pos)

/-- `Rotor::increase_start_pos`. -/
def increase_start_pos (r : Rotor) : Rotor :=
  { r with start_pos := (r.start_pos + 1).tmod 26 }

/-- The loop `for (i = 0; mapping[i] != char_at_input_pos; i++) {}` of
`Rotor::backward_map`, started at index `i`; each unit of fuel pays for one
evaluation of the loop condition.  The result is the value of `i` on exit. -/
def backward_loop (mapping : Fin 26 → Int) (char_at_input_pos : Int) : Nat → Int → Option Int
  | 0, _ => none
  | fuel + 1, i => do
    let cell ← index26 mapping i
    if cell ≠ char_at_input_pos then
      backward_loop mapping char_at_input_pos fuel (i + 1)
    else
      pure i

/-- `Rotor::backward_map`.  The condition of the search loop is evaluated at
most 27 times: the 27th evaluation reads `mapping[26]`, outside the array. -/
def backward_map (r : Rotor) (input_pos : Int) : Option Int := do
  let char_at_input_pos := (input_pos + r.start_pos).tmod 26
  let i ← backward_loop r.mapping char_at_input_pos 27 0
  if r.start_pos > i then
    pure ((i - r.start_pos) + 26)
  else
    pure (i - r.start_pos)

/-- `Rotor::get_start_pos`. -/
def get_start_pos (r : Rotor) : Int := r.start_pos

/-- `Rotor::check_notch`. -/
def check_notch (r : Rotor) (index : Int) : Option Bool := index26 r.notch index

end Rotor

/-- The class `Plugboard`: `char mapping[26]`, cell `i` holds the letter that
letter `i` is plugged to. -/
structure Plugboard where
  mapping : Fin 26 → Int

namespace Plugboard

/-- `Plugboard::backward_map`. -/
def backward_map (pb : Plugboard) (input_pos : Int) : Option Int :=
  index26 pb.mapping input_pos

/-- `Plugboard::forward_map`. -/
def forward_map (pb : Plugboard) (input_char : Int) : Option Int := do
  let input_int := input_char - 65
  let mapped_char ← index26 pb.mapping input_int
  pure (mapped_char - 65)

end Plugboard

/-- The class `Reflector`: `char mapping[26]`. -/
structure Reflector where
  mapping : Fin 26 → Int

namespace Reflector

/-- `Reflector::reflect`. -/
def reflect (rf : Reflector) (input_pos : Int) : Option Int := do
  let mapped_char ← index26 rf.mapping input_pos
  pure (mapped_char - 65)

end Reflector

/-- The class `Enigma`: the plugboard, the array `rotors` (a pointer in the
source, its cells listed here), the count `num_rotors` and the reflector. -/
structure Enigma where
  pb : Plugboard
  rotors : List Rotor
  num_rotors : Int
  rf : Reflector

namespace Enigma

/-- `Enigma::forward`. -/
def forward (e : Enigma) (input : Int) : Option Int := do
  let pos ← e.pb.forward_map input
  let pos ← (List.range e.num_rotors.toNat).foldlM
    (fun pos i => do
      let r ← e.rotors[i]?
      r.forward_map pos) pos
  e.rf.reflect pos

/-- `Enigma::backward`. -/
def backward (e : Enigma) (pos : Int) : Option Int := do
  let pos ←
    (if e.num_rotors ≠ 0 then
      (List.range e.num_rotors.toNat).reverse.foldlM
        (fun pos i => do
          let r ← e.rotors[i]?
          r.backward_map pos) pos
    else
      pure pos)
  e.pb.backward_map pos

/-- One pass of the body of the loop `for (i = 0; i < num_rotors - 1; i++)` of
`Enigma::press_key`. -/
def step_body (rotors : List Rotor) (i : Nat) : Option (List Rotor) := do
  let ri ← rotors[i]?
  if (← ri.check_notch ri.get_start_pos) then
    let rnext ← rotors[i + 1]?
    let new_pos := (rnext.get_start_pos + 1).tmod 26
    pure (rotors.set (i + 1) (rnext.set_start_pos new_pos))
  else
    pure rotors

/-- The block guarded by `if (this->num_rotors)` in `Enigma::press_key`: the
stepping of the rotors. -/
def step (e : Enigma) : Option (List Rotor) := do
  let r0 ← e.rotors[0]?
  let rotors := e.rotors.set 0 r0.increase_start_pos
  (List.range (e.num_rotors - 1).toNat).foldlM step_body rotors

/-- `Enigma::press_key`: the returned letter and the machine after the call. -/
def press_key (e : Enigma) (input : Int) : Option (Int × Enigma) := do
  let rotors ← (if e.num_rotors ≠ 0 then e.step else pure e.rotors)
  let e1 : Enigma := { e with rotors := rotors }
  let pos ← e1.forward input
  let out ← e1.backward pos
  pure (out, e1)

end Enigma


/-! ## Predicates of the specification -/

/-- An alphabet position: an integer in `[0,26)`. -/
def IsPos (p : Int) : Prop := 0 ≤ p ∧ p < 26

instance (p : Int) : Decidable (IsPos p) := inferInstanceAs (Decidable (_ ∧ _))

/-- An upper-case letter `'A'..'Z'`, as a character code. -/
def IsLetter (c : Int) : Prop := 65 ≤ c ∧ c ≤ 90

instance (c : Int) : Decidable (IsLetter c) := inferInstanceAs (Decidable (_ ∧ _))

/-- The wiring is a permutation of `[0,26)`: every cell holds a position and no
two cells hold the same one. -/
def IsPermutation (m : Fin 26 → Int) : Prop :=
  (∀ i, IsPos (m i)) ∧ Function.Injective m

instance (m : Fin 26 → Int) : Decidable (IsPermutation m) :=
  inferInstanceAs (Decidable (_ ∧ _))

/-- Every cell of the table holds a letter `'A'..'Z'`. -/
def LetterTable (m : Fin 26 → Int) : Prop := ∀ i, IsLetter (m i)

instance (m : Fin 26 → Int) : Decidable (LetterTable m) :=
  inferInstanceAs (Decidable (∀ _, _))

/-- The table of letters, read as a map on positions, is an involution: the
cell of position `i` holds a letter, and the cell of that letter holds the
letter of `i`. -/
def IsInvolution (m : Fin 26 → Int) : Prop :=
  ∀ i : Fin 26, IsLetter (m i) ∧ index26 m (m i - 65) = some (65 + (i.val : Int))

instance (m : Fin 26 → Int) : Decidable (IsInvolution m) :=
  inferInstanceAs (Decidable (∀ _, _))

/-- No position is mapped to its own letter. -/
def NoFixedPoint (m : Fin 26 → Int) : Prop :=
  ∀ i : Fin 26, m i ≠ 65 + (i.val : Int)

instance (m : Fin 26 → Int) : Decidable (NoFixedPoint m) :=
  inferInstanceAs (Decidable (∀ _, _))

/-! ## The stepping transition and the signal path of the specification -/

/-- Spec 4.1, `advance()`: `start_pos = (start_pos + 1) mod 26`. -/
def Rotor.advance (r : Rotor) : Rotor :=
  { r with start_pos := (r.start_pos + 1) % 26 }

/-- Spec 4.1, `has_notch_at_current_pos()`: membership of `start_pos` in the
notch set. -/
def Rotor.has_notch_at_current_pos (r : Rotor) : Bool :=
  (index26 r.notch r.start_pos).getD false

/-- Spec 4.2, rule 2: `prev` is the rotor one index below, after its update in
this transition; the next rotor advances when `prev` sits on a notch. -/
def stepping_carry : Rotor → List Rotor → List Rotor
  | _, [] => []
  | prev, r :: rest =>
    let r1 := if prev.has_notch_at_current_pos then r.advance else r
    r1 :: stepping_carry r1 rest

/-- Spec 4.2: the stepping transition of the rotor stack. -/
def stepping : List Rotor → List Rotor
  | [] => []
  | r0 :: rest => r0.advance :: stepping_carry r0.advance rest

/-- Every rotor of the stack has a permutation wiring and a position in range. -/
def RotorsValid (rs : List Rotor) : Prop :=
  ∀ r ∈ rs, IsPermutation r.mapping ∧ IsPos r.start_pos

instance (rs : List Rotor) : Decidable (RotorsValid rs) :=
  inferInstanceAs (Decidable (∀ r ∈ rs, _))

/-- The composition `F_{n-1}(... F_0(p))` of the rotors' `forward_map`, index 0
first. -/
def forward_chain : List Rotor → Int → Option Int
  | [], p => some p
  | r :: rs, p => (r.forward_map p).bind (forward_chain rs)

/-- The composition `B_0(... B_{n-1}(p))` of the rotors' `backward_map`, last
index first. -/
def backward_chain : List Rotor → Int → Option Int
  | [], p => some p
  | r :: rs, p => (backward_chain rs p).bind r.backward_map

/-- Spec 4.4, `process(letter)`, steps 1 to 6: the stepping transition, then
plugboard, rotors forward, reflector, rotors backward, plugboard.  Returns the
output letter and the rotor stack after the call. -/
def process (pb : Plugboard) (rf : Reflector) (rotors : List Rotor) (letter : Int) :
    Option (Int × List Rotor) :=
  (pb.forward_map letter).bind fun p0 =>
  (forward_chain (stepping rotors) p0).bind fun p1 =>
  (rf.reflect p1).bind fun p2 =>
  (backward_chain (stepping rotors) p2).bind fun p3 =>
  (pb.backward_map p3).bind fun out =>
  some (out, stepping rotors)

/-! ## The table loader of `utilities.cpp` -/

/-- The integer error codes thrown by the loader (the constants of `errors.h`;
only their names matter here), the two exceptions the standard library can
throw from `stoi` and `substr`, and a marker for an access outside an array. -/
inductive Err where
  | INSUFFICIENT_NUMBER_OF_PARAMETERS
  | INVALID_INPUT_CHARACTER
  | INVALID_INDEX
  | NON_NUMERIC_CHARACTER
  | IMPOSSIBLE_PLUGBOARD_CONFIGURATION
  | INCORRECT_NUMBER_OF_PLUGBOARD_PARAMETERS
  | INVALID_ROTOR_MAPPING
  | NO_ROTOR_STARTING_POSITION
  | INVALID_REFLECTOR_MAPPING
  | INCORRECT_NUMBER_OF_REFLECTOR_PARAMETERS
  | ERROR_OPENING_CONFIGURATION_FILE
  | STD_INVALID_ARGUMENT
  | STD_OUT_OF_RANGE
  | ARRAY_INDEX_OUT_OF_RANGE
  deriving DecidableEq

/-- Write `a[i] = v` into a 26-cell array; `none` when the index is out of
range. -/
def update26 {α : Type} (a : Fin 26 → α) (i : Int) (v : α) : Option (Fin 26 → α) :=
  if h : 0 ≤ i ∧ i < 26 then some (Function.update a ⟨i.toNat, by omega⟩ v) else none

/-- An array access inside the loader: out of range is reported as
`ARRAY_INDEX_OUT_OF_RANGE`. -/
def arrayAccess {α : Type} (o : Option α) : Except Err α :=
  match o with
  | some v => .ok v
  | none => .error .ARRAY_INDEX_OUT_OF_RANGE

/-- The function `trim`: drops every newline character. -/
def trim (my_string : String) : String :=
  String.mk (my_string.data.filter fun c => c ≠ '\n')

/-- The test `c < 48 || c > 57` of `check_string`. -/
def nonNumeric (c : Char) : Bool := c.toNat < 48 || c.toNat > 57

/-- Decimal value of a list of digit characters. -/
def digitsValue (cs : List Char) : Nat :=
  cs.foldl (fun acc c => 10 * acc + (c.toNat - 48)) 0

/-- The library function `std::stoi` on the strings the loader gives it, which
have passed the digit test of `check_string`: the value of the leading digits,
`std::invalid_argument` when there is none, `std::out_of_range` when the value
does not fit a 32-bit `int`.  (Leading blanks and signs are not modelled: no
such string reaches `stoi` here.) -/
def stoi (s : String) : Except Err Int :=
  let ds := s.data.takeWhile fun c => !nonNumeric c
  if ds.isEmpty then .error .STD_INVALID_ARGUMENT
  else if digitsValue ds > 2147483647 then .error .STD_OUT_OF_RANGE
  else .ok (digitsValue ds : Int)

/-- The function `check_string`: the loop throws at the first character that is
not a digit; then the value of `stoi(a_string)` is checked against `[0,25]`. -/
def check_string (a_string : String) (_filename : String) : Except Err Unit := do
  if a_string.data.any nonNumeric then
    throw Err.NON_NUMERIC_CHARACTER
  let value ← stoi a_string
  if value < 0 ∨ value > 25 then
    throw Err.INVALID_INDEX
  pure ()

/-- The function `plugboard_or_reflector_file_error`.  `filename.size() - 2` is
unsigned: for a name shorter than two characters it exceeds the size and
`substr` throws `std::out_of_range`. -/
def plugboard_or_reflector_file_error (filename : String) : Except Err Unit := do
  if filename.data.length < 2 then
    throw Err.STD_OUT_OF_RANGE
  let filetype := String.mk (filename.data.drop (filename.data.length - 2))
  if filetype = "pb" then
    throw Err.IMPOSSIBLE_PLUGBOARD_CONFIGURATION
  if filetype = "rf" then
    throw Err.INVALID_REFLECTOR_MAPPING
  pure ()

/-- A configuration file as the loader reads it: `none` when it cannot be
opened, otherwise the successive strings delivered by
`std::getline(in, a_string, ' ')`. -/
abbrev ConfigFile := Option (List String)

/-- The local state of the read loop of `map_and_count_pairs`. -/
structure PairState where
  counter : Int
  previous : String
  mapping : Fin 26 → Int

/-- The statements of `map_and_count_pairs` guarded by `counter % 2 == 0`: the
two checks of the pair `(previous, a_string)`, then the two writes.  Both
calls of `plugboard_or_reflector_file_error` may return normally, in which case
the statements that follow are run. -/
def map_pair (filename : String) (mapping : Fin 26 → Int) (previous a_string : String) :
    Except Err (Fin 26 → Int) := do
  if previous = a_string then
    plugboard_or_reflector_file_error filename
  let prev ← stoi previous
  let cur ← stoi a_string
  let cellPrev ← arrayAccess (index26 mapping prev)
  let taken ← (if cellPrev ≠ 0 then pure true
    else do
      let cellCur ← arrayAccess (index26 mapping cur)
      pure (decide (cellCur ≠ 0)))
  if taken then
    plugboard_or_reflector_file_error filename
  let mapping ← arrayAccess (update26 mapping prev (cur + 65))
  arrayAccess (update26 mapping cur (prev + 65))

/-- The body of the `while (std::getline(in, a_string, ' '))` loop of
`map_and_count_pairs`, run on one delivered string. -/
def map_and_count_pairs_body (filename : String) (st : PairState) (piece : String) :
    Except Err PairState :=
  let a_string := trim piece
  if a_string.data.isEmpty then
    pure st
  else do
    let counter := st.counter + 1
    check_string a_string filename
    let mapping ← (if counter.tmod 2 = 0 then
      map_pair filename st.mapping st.previous a_string
    else
      pure st.mapping)
    pure { counter := counter, previous := a_string, mapping := mapping }

/-- The function `map_and_count_pairs`: returns the count and the filled
table. -/
def map_and_count_pairs (filename : String) (file : ConfigFile) :
    Except Err (Int × (Fin 26 → Int)) := do
  let init : PairState := { counter := 0, previous := "", mapping := fun _ => 0 }
  match file with
  | none => throw Err.ERROR_OPENING_CONFIGURATION_FILE
  | some pieces =>
    let st ← pieces.foldlM (map_and_count_pairs_body filename) init
    pure (st.counter, st.mapping)

/-- The function `get_reflector_mapping`. -/
def get_reflector_mapping (filename : String) (file : ConfigFile) :
    Except Err (Fin 26 → Int) := do
  let (num_maps, reflector_mapping) ← map_and_count_pairs filename file
  if num_maps ≠ 26 then
    throw Err.INCORRECT_NUMBER_OF_REFLECTOR_PARAMETERS
  pure reflector_mapping

/-! ## Concrete machines -/

/-- Wiring EKMFLGDQVZNTOWYHXUSPAIBRCJ with a notch at position 16. -/
def rotorI (start_pos : Int) : Rotor :=
  ⟨start_pos, ![4, 10, 12, 5, 11, 6, 3, 16, 21, 25, 13, 19, 14, 22, 24, 7, 23, 20, 18, 15, 0, 8, 1, 17, 2, 9], fun i => decide (i.val = 16)⟩

/-- Wiring AJDKSIRUXBLHWTMCQGZNPYFVOE with a notch at position 4. -/
def rotorII (start_pos : Int) : Rotor :=
  ⟨start_pos, ![0, 9, 3, 10, 18, 8, 17, 20, 23, 1, 11, 7, 22, 19, 12, 2, 16, 6, 25, 13, 15, 24, 5, 21, 14, 4], fun i => decide (i.val = 4)⟩

/-- Wiring BDFHJLCPRTXVZNYEIWGAKMUSQO with a notch at position 21. -/
def rotorIII (start_pos : Int) : Rotor :=
  ⟨start_pos, ![1, 3, 5, 7, 9, 11, 2, 15, 17, 19, 23, 21, 25, 13, 24, 4, 8, 22, 6, 0, 10, 12, 20, 18, 16, 14], fun i => decide (i.val = 21)⟩

/-- The reflector YRUHQSLDPXNGOKMIEBFZCWVJAT, as letter codes. -/
def reflectorB : Reflector :=
  ⟨![89, 82, 85, 72, 81, 83, 76, 68, 80, 88, 78, 71, 79, 75, 77, 73, 69, 66, 70, 90, 67, 87, 86, 74, 65, 84]⟩

/-- A plugboard with the pairs AM, FI, NV, PS, TU, WZ, as letter codes. -/
def plugboardSix : Plugboard :=
  ⟨![77, 66, 67, 68, 69, 73, 71, 72, 70, 74, 75, 76, 65, 86, 79, 83, 81, 82, 80, 85, 84, 78, 90, 88, 89, 87]⟩

/-- A three-rotor machine; index 0 is the rightmost rotor.  The middle rotor
rests on its notch position 4. -/
def demoMachine : Enigma :=
  ⟨plugboardSix, [rotorIII 0, rotorII 4, rotorI 0], 3, reflectorB⟩

/-- The same tables with no rotor in use. -/
def zeroRotorMachine : Enigma :=
  ⟨plugboardSix, [], 0, reflectorB⟩

/-- The rotor of the golden vector: identity wiring, no notch. -/
def identityRotor (start_pos : Int) : Rotor :=
  ⟨start_pos, fun i => (i.val : Int), fun _ => false⟩

/-- The identity plugboard (no pairs). -/
def identityPlugboard : Plugboard :=
  ⟨fun i => 65 + (i.val : Int)⟩

/-- The reflector pairing 0 with 1, 2 with 3, ..., 24 with 25. -/
def pairReflector : Reflector :=
  ⟨fun i => if i.val % 2 = 0 then 65 + (i.val : Int) + 1 else 65 + (i.val : Int) - 1⟩

/-- The one-rotor machine of the golden vector, rotor at position 0. -/
def goldenMachine : Enigma :=
  ⟨identityPlugboard, [identityRotor 0], 1, pairReflector⟩

/-- The strings "2", "3", ..., "25": the pairs 2-3, 4-5, ..., 24-25. -/
def pairTokens : List String :=
  ["2", "3", "4", "5", "6", "7", "8", "9", "10", "11", "12", "13", "14", "15", "16", "17",
    "18", "19", "20", "21", "22", "23", "24", "25"]

/-- A reflector file whose first pair is written `0 00`. -/
def selfPairFile : ConfigFile := some ("0" :: "00" :: pairTokens)

/-- A reflector file whose first pair is written `0 0`. -/
def plainSelfPairFile : ConfigFile := some ("0" :: "0" :: pairTokens)

/-! ## The remaining loaders of `utilities.cpp` and the assembler -/

/-- The function `get_plugboard_mapping`.  The closing loop gives every cell
still holding 0 the letter of its own position. -/
def get_plugboard_mapping (filename : String) (file : ConfigFile) :
    Except Err (Fin 26 → Int) := do
  let (num_maps, mapping) ← map_and_count_pairs filename file
  if num_maps.tmod 2 ≠ 0 then
    throw Err.INCORRECT_NUMBER_OF_PLUGBOARD_PARAMETERS
  pure fun i => if mapping i = 0 then (i.val : Int) + 65 else mapping i

/-- A file as `in >> a_string` reads it: its words (the maximal runs of
characters that are not white space) in order, and whether white space follows
the last word. -/
structure WordFile where
  words : List String
  trailing_blank : Bool

/-- The local state of the read loop of `configure_rotor`, with the two output
arrays. -/
structure RotorLoadState where
  a_string : String
  counter : Int
  numbers : Fin 26 → Bool
  rotor_mapping : Fin 26 → Int
  notch : Fin 26 → Bool

/-- The body of the `while (!in.eof())` loop of `configure_rotor`.  `extracted`
is the word delivered by `in >> a_string`, or `none` when the extraction finds
no word before the end of the file, in which case `a_string` keeps its value. -/
def configure_rotor_body (filename : String) (st : RotorLoadState)
    (extracted : Option String) : Except Err RotorLoadState := do
  let a_string := trim (extracted.getD st.a_string)
  check_string a_string filename
  let number ← stoi a_string
  if st.counter < 26 then
    let seen ← arrayAccess (index26 st.numbers number)
    if seen then
      throw Err.INVALID_ROTOR_MAPPING
    let numbers ← arrayAccess (update26 st.numbers number true)
    let rotor_mapping ← arrayAccess (update26 st.rotor_mapping st.counter number)
    pure { st with a_string := a_string, counter := st.counter + 1, numbers := numbers,
                   rotor_mapping := rotor_mapping }
  else
    let notch ← arrayAccess (update26 st.notch number true)
    pure { st with a_string := a_string, counter := st.counter + 1, notch := notch }

/-- The loop `while (!in.eof()) { in >> a_string; ... }` of `configure_rotor` on
the words still unread.  The end-of-file flag is raised by the extraction that
reaches the end of the file: the one that reads the last word when no white
space follows it, or else the one that finds no word at all; the body is run
in both cases and the loop stops after it. -/
def configure_rotor_loop (filename : String) (trailing_blank : Bool) :
    List String → RotorLoadState → Except Err RotorLoadState
  | [], st => configure_rotor_body filename st none
  | w :: rest, st => do
    let st1 ← configure_rotor_body filename st (some w)
    if rest.isEmpty && !trailing_blank then
      pure st1
    else
      configure_rotor_loop filename trailing_blank rest st1

/-- The function `configure_rotor`: returns the arrays `rotor_mapping` and
`notch`.  `file` is `none` when the file cannot be opened. -/
def configure_rotor (filename : String) (file : Option WordFile)
    (rotor_mapping : Fin 26 → Int) : Except Err ((Fin 26 → Int) × (Fin 26 → Bool)) := do
  match file with
  | none => throw Err.ERROR_OPENING_CONFIGURATION_FILE
  | some f =>
    let init : RotorLoadState :=
      { a_string := "", counter := 0, numbers := fun _ => false,
        rotor_mapping := rotor_mapping, notch := fun _ => false }
    let st ← configure_rotor_loop filename f.trailing_blank f.words init
    if st.counter < 26 then
      throw Err.INVALID_ROTOR_MAPPING
    pure (st.rotor_mapping, st.notch)

/-- Write `a[i] = v` into an array given by the list of its cells; `none` when
`i` is not the index of a cell. -/
def writeCell {α : Type} (a : List α) (i : Nat) (v : α) : Option (List α) :=
  if i < a.length then some (a.set i v) else none

/-- Read `a[i]` with an `int` index from an array given by the list of its
cells. -/
def readCell {α : Type} (a : List α) (i : Int) : Option α :=
  if 0 ≤ i then a[i.toNat]? else none

/-- The local state of the read loop of `get_start_positions`: the count (an
`int` that only grows from 0) and the cells of the array `rotor_positions`. -/
structure PositionsState where
  string_count : Nat
  rotor_positions : List Int

/-- The body of the `while (std::getline(in, a_string, ' '))` loop of
`get_start_positions`, run on one delivered string.  The write
`rotor_positions[string_count++] = stoi(a_string)` is not checked against the
size of the caller's array: past the last cell it lands outside the array, the
listed cells stay as they are, and the loop goes on. -/
def get_start_positions_body (filename : String) (st : PositionsState) (piece : String) :
    Except Err PositionsState :=
  let a_string := trim piece
  if a_string.data.isEmpty then
    pure st
  else do
    check_string a_string filename
    let value ← stoi a_string
    pure { string_count := st.string_count + 1,
           rotor_positions := st.rotor_positions.set st.string_count value }

/-- The function `get_start_positions`; `rotor_positions` lists the cells of
the array the caller passes, and the result lists them after the call. -/
def get_start_positions (filename : String) (file : ConfigFile) (num_rotors : Int)
    (rotor_positions : List Int) : Except Err (List Int) := do
  match file with
  | none => throw Err.ERROR_OPENING_CONFIGURATION_FILE
  | some pieces =>
    let st ← pieces.foldlM (get_start_positions_body filename)
      { string_count := 0, rotor_positions := rotor_positions }
    if (st.string_count : Int) < num_rotors then
      throw Err.NO_ROTOR_STARTING_POSITION
    pure st.rotor_positions

/-- The files on disk, as seen by the two ways the loader reads them: word by
word with `in >> a_string`, and piece by piece with
`std::getline(in, a_string, ' ')`.  `none` is a file that cannot be opened. -/
structure FileSystem where
  words : String → Option WordFile
  pieces : String → ConfigFile

/-- The constructor `Rotor()`: wiring and notches are zero; `start_pos` is not
initialised in the source and stands as 0 here. -/
def Rotor.default : Rotor := ⟨0, fun _ => 0, fun _ => false⟩

/-- The constructor `Rotor(file, start_pos)`. -/
def Rotor.construct (fs : FileSystem) (file : String) (start_pos : Int) : Except Err Rotor := do
  let (mapping, notch) ← configure_rotor file (fs.words file) (fun _ => 0)
  pure ⟨start_pos, mapping, notch⟩

/-- The class `RotorsAssembler`; `rotor_files` lists the cells of the array of
file names. -/
structure RotorsAssembler where
  rotor_files : List String
  pos_file : String
  num_rotors : Int

/-- One pass of the body of the loop `for (i = 0; i < num_rotors; i++)` of
`RotorsAssembler::assemble`. -/
def RotorsAssembler.assemble_body (a : RotorsAssembler) (fs : FileSystem)
    (start_positions : List Int) (rotors : List Rotor) (i : Nat) : Except Err (List Rotor) := do
  let index : Int := a.num_rotors - 1 - (i : Int)
  let file ← arrayAccess (readCell a.rotor_files index)
  let start_pos ← arrayAccess (readCell start_positions index)
  let rotor ← Rotor.construct fs file start_pos
  arrayAccess (writeCell rotors i rotor)

/-- The function `RotorsAssembler::assemble`; the empty list stands for the
null pointer returned when there is no rotor.  The two arrays are allocated
with `num_rotors` cells. -/
def RotorsAssembler.assemble (a : RotorsAssembler) (fs : FileSystem) :
    Except Err (List Rotor) :=
  if a.num_rotors ≠ 0 then do
    let rotors := List.replicate a.num_rotors.toNat Rotor.default
    let start_positions := List.replicate a.num_rotors.toNat (0 : Int)
    let start_positions ←
      get_start_positions a.pos_file (fs.pieces a.pos_file) a.num_rotors start_positions
    (List.range a.num_rotors.toNat).foldlM (a.assemble_body fs start_positions) rotors
  else
    pure []

/-! ## Tokens of the specification -/

/-- A numeric token: a non-empty string of decimal digits whose value lies in
`[0,25]`. -/
def NumericToken (t : String) : Prop :=
  t.data ≠ [] ∧ (∀ c ∈ t.data, 48 ≤ c.toNat ∧ c.toNat ≤ 57) ∧ digitsValue t.data ≤ 25

instance (t : String) : Decidable (NumericToken t) :=
  inferInstanceAs (Decidable (_ ∧ _ ∧ _))

/-- The value of a numeric token. -/
def tokenValue (t : String) : Int := (digitsValue t.data : Int)

/-- The tokens of a file read piece by piece: the delivered strings without
their newlines, the empty ones left out. -/
def tokensOf (pieces : List String) : List String :=
  (pieces.map trim).filter fun s => !s.data.isEmpty

/-- Spec 4.1, `forward_map`: `shifted = (input_pos + start_pos) mod 26`,
`wired = mapping[shifted]`, `output = (wired - start_pos) mod 26`. -/
def Rotor.forward_map_reference (r : Rotor) (input_pos : Int) : Option Int :=
  (index26 r.mapping ((input_pos + r.start_pos) % 26)).map fun wired =>
    (wired - r.start_pos) % 26

/-! ## Concrete files -/

/-- The words "4", "10", ..., "9": the wiring EKMFLGDQVZNTOWYHXUSPAIBRCJ. -/
def wiringWordsI : List String :=
  ["4", "10", "12", "5", "11", "6", "3", "16", "21", "25", "13", "19", "14", "22", "24", "7",
    "23", "20", "18", "15", "0", "8", "1", "17", "2", "9"]

/-- A rotor file with exactly the 26 entries of wiring I and a newline after
the last one. -/
def rotorFileNewline : WordFile := ⟨wiringWordsI, true⟩

/-- A rotor file with the 26 entries of wiring I, the notch entry 16, and
nothing after it. -/
def rotorFileNotch : WordFile := ⟨wiringWordsI ++ ["16"], false⟩

/-- A rotor file with no entry at all. -/
def rotorFileEmpty : WordFile := ⟨[], false⟩

/-- A plugboard file in which 0 appears in two pairs. -/
def repeatedValueFile : ConfigFile := some ["0", "1", "0", "2"]

/-- A disk holding the rotor file `I.rot` (wiring I with notch 16) and the
position file `two.pos` with the positions 3 and 7. -/
def demoDisk : FileSystem :=
  { words := fun name => if name = "I.rot" then some rotorFileNotch else none,
    pieces := fun name => if name = "two.pos" then some ["3", "7\n"] else none }

/-- An assembler for two rotors, both read from `I.rot`. -/
def demoAssembler : RotorsAssembler := ⟨["I.rot", "I.rot"], "two.pos", 2⟩

/-- The rotors the assembler builds from the demonstration disk: file `I.rot`
with the start position of token `j` of `two.pos`. -/
def demoBuilt (j : Nat) : Rotor :=
  match Rotor.construct demoDisk "I.rot" (if j = 0 then 3 else 7) with
  | .ok r => r
  | .error _ => Rotor.default

/-! ## Devices for the read loop of `configure_rotor` -/

/-- The strings on which the body of the read loop of `configure_rotor` runs,
in order: every word, and once more the string left in `a_string` when the
last extraction finds no word. -/
def bodyStrings (trailing_blank : Bool) : List String → String → List String
  | [], a_string => [a_string]
  | w :: rest, _ =>
    w :: (if rest.isEmpty && !trailing_blank then [] else bodyStrings trailing_blank rest (trim w))

/-- The state of the read loop of `configure_rotor` after the body has run on
tokens of values `done`: the count, the values seen among the first 26, the
wiring cells written so far, and the notches named after the first 26. -/
def RotorLoadInv (st : RotorLoadState) (done : List Int) : Prop :=
  st.counter = (done.length : Int) ∧
  (∀ v : Fin 26, st.numbers v = true ↔ (v.val : Int) ∈ done.take 26) ∧
  (∀ i : Fin 26, i.val < done.length → done[i.val]? = some (st.rotor_mapping i)) ∧
  (∀ p : Fin 26, st.notch p = true ↔ (p.val : Int) ∈ done.drop 26) ∧
  (done.take 26).Nodup ∧ (∀ v ∈ done, 0 ≤ v ∧ v ≤ 25)

/-! ## The per-character loop of `main.cpp` -/

/-- The function `check_input` of `utilities.cpp`. -/
def check_input (a_char : Int) : Except Err Unit :=
  if a_char < 65 ∨ a_char > 90 then
    throw Err.INVALID_INPUT_CHARACTER
  else
    pure ()

/-- The loop `for (char& c : message) { check_input(c); std::cout <<
enigma.press_key(c); }` of `main`: the characters printed, in order, and
either the error that stopped the loop or the machine after the last
character. -/
def main_loop (enigma : Enigma) : List Int → List Int × Except Err Enigma
  | [] => ([], .ok enigma)
  | c :: rest =>
    match check_input c with
    | .error err => ([], .error err)
    | .ok _ =>
      match enigma.press_key c with
      | none => ([], .error Err.ARRAY_INDEX_OUT_OF_RANGE)
      | some (out, enigma1) =>
        let (printed, result) := main_loop enigma1 rest
        (out :: printed, result)

/-- The message HELLO, as letter codes. -/
def helloMessage : List Int := [72, 69, 76, 76, 79]

/-! ## Rotor lemmas -/

theorem index26_pos {α : Type} (a : Fin 26 → α) (j : Fin 26) :
    index26 a (j.val : Int) = some (a j) := by
  have h : (0 : Int) ≤ (j.val : Int) ∧ (j.val : Int) < 26 := by omega
  simp [index26, h]

theorem index26_eq_some {α : Type} (a : Fin 26 → α) (i : Int) (h : IsPos i) :
    ∃ j : Fin 26, (j.val : Int) = i ∧ index26 a i = some (a j) := by
  obtain ⟨h0, h1⟩ := h
  refine ⟨⟨i.toNat, by omega⟩, by simp; omega, ?_⟩
  simp [index26, h0, h1]

theorem IsPermutation.surj {m : Fin 26 → Int} (h : IsPermutation m) (c : Int) (hc : IsPos c) :
    ∃ j : Fin 26, m j = c := by
  obtain ⟨hr, hinj⟩ := h
  let f : Fin 26 → Fin 26 := fun i => ⟨(m i).toNat, by have := hr i; unfold IsPos at this; omega⟩
  have hf : Function.Injective f := by
    intro a b hab
    apply hinj
    have h1 := hr a
    have h2 := hr b
    unfold IsPos at h1 h2
    have : (m a).toNat = (m b).toNat := congrArg Fin.val hab
    omega
  obtain ⟨j, hj⟩ := (Finite.injective_iff_surjective.mp hf) ⟨c.toNat, by unfold IsPos at hc; omega⟩
  refine ⟨j, ?_⟩
  have h1 := hr j
  unfold IsPos at h1 hc
  have : (m j).toNat = c.toNat := congrArg Fin.val hj
  omega

theorem Rotor.backward_loop_find (m : Fin 26 → Int) (c : Int) (j : Fin 26) (hj : m j = c)
    (hmin : ∀ k : Fin 26, k < j → m k ≠ c) :
    ∀ (fuel i : Nat), i ≤ j.val → j.val - i < fuel →
      Rotor.backward_loop m c fuel (i : Int) = some (j.val : Int) := by
  intro fuel
  induction fuel with
  | zero => intro i _ h; omega
  | succ n ih =>
    intro i hi hfuel
    have hi26 : i < 26 := by omega
    have hidx : index26 m (i : Int) = some (m ⟨i, hi26⟩) := index26_pos m ⟨i, hi26⟩
    by_cases hij : i = j.val
    · subst hij
      simp [Rotor.backward_loop, index26_pos m j, hj]
    · have hlt : (⟨i, hi26⟩ : Fin 26) < j := by
        apply Fin.lt_def.mpr; simp; omega
      have hne := hmin _ hlt
      have hrec := ih (i + 1) (by omega) (by omega)
      simp only [Nat.cast_add, Nat.cast_one] at hrec
      simp [Rotor.backward_loop, hidx, hne, hrec]

theorem Rotor.forward_map_eq (r : Rotor) (hm : ∀ i, IsPos (r.mapping i)) (hs : IsPos r.start_pos)
    (x : Int) (hx : IsPos x) :
    ∃ j : Fin 26, (j.val : Int) = (x + r.start_pos) % 26 ∧
      r.forward_map x = some ((r.mapping j - r.start_pos) % 26) := by
  unfold IsPos at hs hx
  have hmod : (x + r.start_pos).tmod 26 = (x + r.start_pos) % 26 :=
    Int.tmod_eq_emod (by omega) (by decide)
  obtain ⟨j, hj, hidx⟩ := index26_eq_some r.mapping ((x + r.start_pos) % 26) (by unfold IsPos; omega)
  refine ⟨j, hj, ?_⟩
  have hmj := hm j
  unfold IsPos at hmj
  simp only [Rotor.forward_map, hmod, hidx, Option.bind_eq_bind, Option.some_bind]
  split
  · simp only [pure, Option.some.injEq]; omega
  · simp only [pure, Option.some.injEq]; omega

theorem Rotor.backward_map_eq (r : Rotor) (hp : IsPermutation r.mapping) (hs : IsPos r.start_pos)
    (x : Int) (hx : IsPos x) (j : Fin 26) (hj : r.mapping j = (x + r.start_pos) % 26) :
    r.backward_map x = some (((j.val : Int) - r.start_pos) % 26) := by
  unfold IsPos at hs hx
  have hmod : (x + r.start_pos).tmod 26 = (x + r.start_pos) % 26 :=
    Int.tmod_eq_emod (by omega) (by decide)
  have hfind := Rotor.backward_loop_find r.mapping _ j hj
    (fun k hk h => absurd (hp.2 (h.trans hj.symm)) (Fin.ne_of_lt hk)) 27 0 (by omega) (by omega)
  simp only [Nat.cast_zero] at hfind
  simp only [Rotor.backward_map, hmod, hfind, Option.bind_eq_bind, Option.some_bind]
  split
  · simp only [pure, Option.some.injEq]; omega
  · simp only [pure, Option.some.injEq]; omega

/-! ## The stepping loop -/

theorem Rotor.advance_pos (r : Rotor) : IsPos r.advance.start_pos := by
  simp only [Rotor.advance, IsPos]; omega

theorem Rotor.increase_start_pos_eq (r : Rotor) (h : IsPos r.start_pos) :
    r.increase_start_pos = r.advance := by
  unfold IsPos at h
  simp only [Rotor.increase_start_pos, Rotor.advance]
  rw [Int.tmod_eq_emod (by omega) (by decide)]

theorem Rotor.check_notch_eq (r : Rotor) (h : IsPos r.start_pos) :
    r.check_notch r.get_start_pos = some r.has_notch_at_current_pos := by
  obtain ⟨j, _, hj⟩ := index26_eq_some r.notch r.start_pos h
  simp [Rotor.check_notch, Rotor.get_start_pos, Rotor.has_notch_at_current_pos, hj]

theorem Enigma.step_body_eq (pre : List Rotor) (p r : Rotor) (rest : List Rotor)
    (hp : IsPos p.start_pos) (hr : IsPos r.start_pos) :
    Enigma.step_body (pre ++ p :: r :: rest) pre.length =
      some (pre ++ p :: (if p.has_notch_at_current_pos then r.advance else r) :: rest) := by
  unfold IsPos at hr
  have hadv : r.set_start_pos ((r.get_start_pos + 1).tmod 26) = r.advance := by
    simp only [Rotor.set_start_pos, Rotor.get_start_pos, Rotor.advance]
    rw [Int.tmod_eq_emod (by omega) (by decide)]
  have h0 : (pre ++ p :: r :: rest)[pre.length]? = some p := by
    rw [List.getElem?_append_right (Nat.le_refl _)]; simp
  have h1 : (pre ++ p :: r :: rest)[pre.length + 1]? = some r := by
    rw [List.getElem?_append_right (by omega)]; simp
  have hset : (pre ++ p :: r :: rest).set (pre.length + 1) r.advance = pre ++ p :: r.advance :: rest := by
    rw [List.set_append_right _ _ (by omega)]; simp
  simp only [Enigma.step_body, h0, h1, Option.bind_eq_bind, Option.some_bind,
    Rotor.check_notch_eq p hp, hadv, hset]
  cases hb : p.has_notch_at_current_pos <;> simp

theorem Enigma.step_loop_eq (rest : List Rotor) :
    ∀ (pre : List Rotor) (p : Rotor), IsPos p.start_pos → (∀ r ∈ rest, IsPos r.start_pos) →
      (List.range' pre.length rest.length).foldlM Enigma.step_body (pre ++ p :: rest) =
        some (pre ++ p :: stepping_carry p rest) := by
  induction rest with
  | nil => intro pre p _ _; simp [stepping_carry, List.range']
  | cons r rest ih =>
    intro pre p hp hrest
    have hr : IsPos r.start_pos := hrest r (List.mem_cons_self _ _)
    have hr1 : IsPos (if p.has_notch_at_current_pos then r.advance else r).start_pos := by
      split
      · exact r.advance_pos
      · exact hr
    have h := ih (pre ++ [p]) _ hr1 (fun x hx => hrest x (List.mem_cons_of_mem _ hx))
    simp only [List.length_append, List.length_singleton, List.append_assoc,
      List.singleton_append] at h
    simp only [List.length_cons, List.range', List.foldlM_cons, Enigma.step_body_eq pre p r rest hp hr,
      Option.bind_eq_bind, Option.some_bind, stepping_carry]
    exact h

theorem Enigma.step_eq (e : Enigma) (hwf : e.num_rotors = (e.rotors.length : Int))
    (hn : e.rotors ≠ []) (hpos : ∀ r ∈ e.rotors, IsPos r.start_pos) :
    e.step = some (stepping e.rotors) := by
  obtain ⟨pb, rotors, n, rf⟩ := e
  simp only at hwf hn hpos
  cases rotors with
  | nil => exact absurd rfl hn
  | cons r0 rest =>
    have h0 : IsPos r0.start_pos := hpos r0 (List.mem_cons_self _ _)
    have hloop := Enigma.step_loop_eq rest [] r0.advance r0.advance_pos
      (fun x hx => hpos x (List.mem_cons_of_mem _ hx))
    have hlen : (n - 1).toNat = rest.length := by
      subst hwf; simp only [List.length_cons]; omega
    simp only [List.length_nil, List.nil_append] at hloop
    simp only [Enigma.step, hlen, List.getElem?_cons_zero, Option.bind_eq_bind, Option.some_bind,
      List.set_cons_zero, Rotor.increase_start_pos_eq r0 h0, List.range_eq_range', stepping]
    exact hloop

theorem range_lookup {α : Type} (l : List α) :
    (List.range l.length).map (fun i => l[i]?) = l.map some := by
  apply List.ext_getElem
  · simp
  · intro i h1 h2
    simp only [List.length_map, List.length_range] at h1
    simp [List.getElem?_eq_getElem h1]

theorem forward_fold_eq (rs : List Rotor) :
    ∀ p : Int, (rs.map some).foldlM
      (fun (pos : Int) (o : Option Rotor) => o.bind fun r => r.forward_map pos) p
        = forward_chain rs p := by
  induction rs with
  | nil => intro p; rfl
  | cons r rs ih =>
    intro p
    simp only [List.map_cons, List.foldlM_cons, Option.some_bind, Option.bind_eq_bind,
      forward_chain]
    congr 1
    funext q
    exact ih q

theorem backward_fold_eq (rs : List Rotor) :
    ∀ p : Int, (rs.map some).reverse.foldlM
      (fun (pos : Int) (o : Option Rotor) => o.bind fun r => r.backward_map pos) p
        = backward_chain rs p := by
  induction rs with
  | nil => intro p; rfl
  | cons r rs ih =>
    intro p
    simp only [List.map_cons, List.reverse_cons, List.foldlM_append, ih, backward_chain,
      Option.bind_eq_bind, List.foldlM_cons, List.foldlM_nil, Option.some_bind]
    congr 1
    funext q
    cases r.backward_map q <;> rfl

theorem Enigma.forward_eq (e : Enigma) (hwf : e.num_rotors = (e.rotors.length : Int))
    (input : Int) :
    e.forward input =
      (e.pb.forward_map input).bind fun p0 =>
        (forward_chain e.rotors p0).bind e.rf.reflect := by
  have hfold : ∀ p : Int, (List.range e.rotors.length).foldlM
      (fun pos i => (e.rotors[i]?).bind fun r => r.forward_map pos) p
        = forward_chain e.rotors p := by
    intro p
    rw [← forward_fold_eq, ← range_lookup, List.foldlM_map]
  simp only [Enigma.forward, hwf, Int.toNat_ofNat, hfold, Option.bind_eq_bind]

theorem Enigma.backward_eq (e : Enigma) (hwf : e.num_rotors = (e.rotors.length : Int))
    (pos : Int) :
    e.backward pos = (backward_chain e.rotors pos).bind e.pb.backward_map := by
  have hfold : ∀ p : Int, (List.range e.rotors.length).reverse.foldlM
      (fun pos i => (e.rotors[i]?).bind fun r => r.backward_map pos) p
        = backward_chain e.rotors p := by
    intro p
    rw [← backward_fold_eq, ← range_lookup, ← List.map_reverse, List.foldlM_map]
  by_cases h0 : e.num_rotors = 0
  · have hnil : e.rotors = [] := by
      rw [hwf] at h0
      exact List.length_eq_zero.mp (by omega)
    simp [Enigma.backward, h0, hnil, backward_chain]
  · have h1 : ¬ ((e.rotors.length : Int) = 0) := by rw [← hwf]; exact h0
    simp only [Enigma.backward, ne_eq, h1, not_false_eq_true, if_true, hwf, Int.toNat_ofNat,
      hfold, Option.bind_eq_bind]

theorem stepping_length (rs : List Rotor) : (stepping rs).length = rs.length := by
  have hc : ∀ (l : List Rotor) (p : Rotor), (stepping_carry p l).length = l.length := by
    intro l
    induction l with
    | nil => intro p; rfl
    | cons r l ih => intro p; simp [stepping_carry, ih]
  cases rs with
  | nil => rfl
  | cons r rs => simp [stepping, hc]

theorem Enigma.press_key_eq (e : Enigma) (hwf : e.num_rotors = (e.rotors.length : Int))
    (hpos : ∀ r ∈ e.rotors, IsPos r.start_pos) (input : Int) :
    e.press_key input =
      (process e.pb e.rf e.rotors input).map fun res => (res.1, { e with rotors := res.2 }) := by
  have hstep : (if e.num_rotors ≠ 0 then e.step else pure e.rotors) = some (stepping e.rotors) := by
    by_cases h0 : e.num_rotors = 0
    · have hnil : e.rotors = [] := by
        rw [hwf] at h0
        exact List.length_eq_zero.mp (by omega)
      simp [h0, hnil, stepping]
    · have hne : e.rotors ≠ [] := by
        intro hnil
        apply h0
        rw [hwf, hnil]; rfl
      simp [h0, Enigma.step_eq e hwf hne hpos]
  have hwf1 : ({ e with rotors := stepping e.rotors } : Enigma).num_rotors
      = (({ e with rotors := stepping e.rotors } : Enigma).rotors.length : Int) := by
    simp [stepping_length, hwf]
  unfold Enigma.press_key
  rw [hstep]
  simp only [Option.bind_eq_bind, Option.some_bind, bind, pure,
    Enigma.forward_eq _ hwf1, Enigma.backward_eq _ hwf1, process]
  cases e.pb.forward_map input with
  | none => rfl
  | some p0 =>
    simp only [Option.some_bind, Option.map]
    cases forward_chain (stepping e.rotors) p0 with
    | none => rfl
    | some p1 =>
      simp only [Option.some_bind]
      cases e.rf.reflect p1 with
      | none => rfl
      | some p2 =>
        simp only [Option.some_bind]
        cases backward_chain (stepping e.rotors) p2 with
        | none => rfl
        | some p3 =>
          simp only [Option.some_bind]
          cases e.pb.backward_map p3 <;> rfl

/-! ## Round trips through one rotor and through the stack -/

theorem Rotor.forward_then_backward (r : Rotor) (hp : IsPermutation r.mapping)
    (hs : IsPos r.start_pos) (x : Int) (hx : IsPos x) :
    ∃ y, r.forward_map x = some y ∧ IsPos y ∧ r.backward_map y = some x := by
  obtain ⟨j, hj, hf⟩ := r.forward_map_eq hp.1 hs x hx
  have hmj := hp.1 j
  have hy : IsPos ((r.mapping j - r.start_pos) % 26) := by unfold IsPos; omega
  refine ⟨_, hf, hy, ?_⟩
  unfold IsPos at hs hx hmj
  have hb := r.backward_map_eq hp hs _ hy j (by omega)
  rw [hb]
  congr 1
  omega

theorem Rotor.backward_then_forward (r : Rotor) (hp : IsPermutation r.mapping)
    (hs : IsPos r.start_pos) (x : Int) (hx : IsPos x) :
    ∃ y, r.backward_map x = some y ∧ IsPos y ∧ r.forward_map y = some x := by
  obtain ⟨j, hj⟩ := hp.surj ((x + r.start_pos) % 26) (by unfold IsPos; omega)
  have hb := r.backward_map_eq hp hs x hx j hj
  have hy : IsPos (((j.val : Int) - r.start_pos) % 26) := by unfold IsPos; omega
  refine ⟨_, hb, hy, ?_⟩
  obtain ⟨k, hk, hf⟩ := r.forward_map_eq hp.1 hs _ hy
  unfold IsPos at hs hx
  have hkj : k = j := by
    apply Fin.ext
    have := j.isLt
    omega
  rw [hf, hkj, hj]
  congr 1
  omega

theorem forward_chain_round (rs : List Rotor) (hv : RotorsValid rs) :
    ∀ x, IsPos x → ∃ y, forward_chain rs x = some y ∧ IsPos y ∧ backward_chain rs y = some x := by
  induction rs with
  | nil => intro x hx; exact ⟨x, rfl, hx, rfl⟩
  | cons r rs ih =>
    intro x hx
    obtain ⟨hp, hs⟩ := hv r (List.mem_cons_self _ _)
    obtain ⟨y, hf, hy, hb⟩ := r.forward_then_backward hp hs x hx
    obtain ⟨z, hfz, hz, hbz⟩ := ih (fun q hq => hv q (List.mem_cons_of_mem _ hq)) y hy
    exact ⟨z, by simp [forward_chain, hf, hfz], hz, by simp [backward_chain, hbz, hb]⟩

theorem backward_chain_round (rs : List Rotor) (hv : RotorsValid rs) :
    ∀ x, IsPos x → ∃ y, backward_chain rs x = some y ∧ IsPos y ∧ forward_chain rs y = some x := by
  induction rs with
  | nil => intro x hx; exact ⟨x, rfl, hx, rfl⟩
  | cons r rs ih =>
    intro x hx
    obtain ⟨hp, hs⟩ := hv r (List.mem_cons_self _ _)
    obtain ⟨y, hby, hy, hfy⟩ := ih (fun q hq => hv q (List.mem_cons_of_mem _ hq)) x hx
    obtain ⟨z, hb, hz, hf⟩ := r.backward_then_forward hp hs y hy
    exact ⟨z, by simp [backward_chain, hby, hb], hz, by simp [forward_chain, hf, hfy]⟩

theorem stepping_carry_mem (rest : List Rotor) :
    ∀ (p q : Rotor), q ∈ stepping_carry p rest → ∃ r ∈ rest, q = r ∨ q = r.advance := by
  induction rest with
  | nil => intro p q hq; simp [stepping_carry] at hq
  | cons r rest ih =>
    intro p q hq
    simp only [stepping_carry, List.mem_cons] at hq
    rcases hq with hq | hq
    · refine ⟨r, List.mem_cons_self _ _, ?_⟩
      rw [hq]
      split
      · exact Or.inr rfl
      · exact Or.inl rfl
    · obtain ⟨r1, hr1, h⟩ := ih _ q hq
      exact ⟨r1, List.mem_cons_of_mem _ hr1, h⟩

theorem stepping_mem (rs : List Rotor) (q : Rotor) (hq : q ∈ stepping rs) :
    ∃ r ∈ rs, q = r ∨ q = r.advance := by
  cases rs with
  | nil => simp [stepping] at hq
  | cons r rest =>
    simp only [stepping, List.mem_cons] at hq
    rcases hq with hq | hq
    · exact ⟨r, List.mem_cons_self _ _, Or.inr hq⟩
    · obtain ⟨r1, hr1, h⟩ := stepping_carry_mem rest _ q hq
      exact ⟨r1, List.mem_cons_of_mem _ hr1, h⟩

theorem stepping_valid (rs : List Rotor) (hv : RotorsValid rs) : RotorsValid (stepping rs) := by
  intro q hq
  obtain ⟨r, hr, h⟩ := stepping_mem rs q hq
  obtain ⟨hp, hs⟩ := hv r hr
  rcases h with h | h
  · rw [h]; exact ⟨hp, hs⟩
  · rw [h]; exact ⟨hp, r.advance_pos⟩

theorem stepping_pos (rs : List Rotor) (hv : ∀ r ∈ rs, IsPos r.start_pos) :
    ∀ r ∈ stepping rs, IsPos r.start_pos := by
  intro q hq
  obtain ⟨r, hr, h⟩ := stepping_mem rs q hq
  rcases h with h | h
  · rw [h]; exact hv r hr
  · rw [h]; exact r.advance_pos

/-! ## Plugboard and reflector lookups -/

theorem Plugboard.forward_lookup (pb : Plugboard) (L : Int) (hL : IsLetter L) :
    ∃ j : Fin 26, (j.val : Int) = L - 65 ∧ pb.forward_map L = some (pb.mapping j - 65) := by
  obtain ⟨j, hj, hidx⟩ := index26_eq_some pb.mapping (L - 65) (by unfold IsLetter at hL; unfold IsPos; omega)
  exact ⟨j, hj, by simp [Plugboard.forward_map, hidx]⟩

theorem Plugboard.backward_lookup (pb : Plugboard) (p : Int) (hp : IsPos p) :
    ∃ j : Fin 26, (j.val : Int) = p ∧ pb.backward_map p = some (pb.mapping j) := by
  obtain ⟨j, hj, hidx⟩ := index26_eq_some pb.mapping p hp
  exact ⟨j, hj, by simp [Plugboard.backward_map, hidx]⟩

theorem Reflector.reflect_lookup (rf : Reflector) (p : Int) (hp : IsPos p) :
    ∃ j : Fin 26, (j.val : Int) = p ∧ rf.reflect p = some (rf.mapping j - 65) := by
  obtain ⟨j, hj, hidx⟩ := index26_eq_some rf.mapping p hp
  exact ⟨j, hj, by simp [Reflector.reflect, hidx]⟩

theorem letter_sub_pos (c : Int) (h : IsLetter c) : IsPos (c - 65) := by
  unfold IsLetter at h; unfold IsPos; omega

theorem process_total (pb : Plugboard) (rf : Reflector) (rs : List Rotor)
    (hpb : LetterTable pb.mapping) (hrf : LetterTable rf.mapping) (hv : RotorsValid rs)
    (L : Int) (hL : IsLetter L) :
    ∃ p0 p1 p2 p3 out, pb.forward_map L = some p0 ∧ forward_chain (stepping rs) p0 = some p1 ∧
      rf.reflect p1 = some p2 ∧ backward_chain (stepping rs) p2 = some p3 ∧
      pb.backward_map p3 = some out ∧ IsLetter out ∧
      process pb rf rs L = some (out, stepping rs) := by
  obtain ⟨j, _, h0⟩ := pb.forward_lookup L hL
  obtain ⟨p1, h1, hp1, _⟩ := forward_chain_round _ (stepping_valid rs hv) _ (letter_sub_pos _ (hpb j))
  obtain ⟨k, _, h2⟩ := rf.reflect_lookup p1 hp1
  obtain ⟨p3, h3, hp3, _⟩ := backward_chain_round _ (stepping_valid rs hv) _ (letter_sub_pos _ (hrf k))
  obtain ⟨l, _, h4⟩ := pb.backward_lookup p3 hp3
  exact ⟨_, _, _, _, _, h0, h1, h2, h3, h4, hpb l, by simp [process, h0, h1, h2, h3, h4]⟩

theorem process_reciprocal (pb : Plugboard) (rf : Reflector) (rs : List Rotor)
    (hpb : IsInvolution pb.mapping) (hrf : IsInvolution rf.mapping) (hv : RotorsValid rs)
    (L : Int) (hL : IsLetter L) :
    ∃ C, IsLetter C ∧ process pb rf rs L = some (C, stepping rs) ∧
      process pb rf rs C = some (L, stepping rs) := by
  have hsv := stepping_valid rs hv
  obtain ⟨j, hj, h0⟩ := pb.forward_lookup L hL
  obtain ⟨p1, h1, hp1, h1b⟩ := forward_chain_round _ hsv _ (letter_sub_pos _ (hpb j).1)
  obtain ⟨k, hk, h2⟩ := rf.reflect_lookup p1 hp1
  obtain ⟨p3, h3, hp3, h3f⟩ := backward_chain_round _ hsv _ (letter_sub_pos _ (hrf k).1)
  obtain ⟨l, hl, h4⟩ := pb.backward_lookup p3 hp3
  refine ⟨pb.mapping l, (hpb l).1, by simp [process, h0, h1, h2, h3, h4], ?_⟩
  have g0 : pb.forward_map (pb.mapping l) = some p3 := by
    simp only [Plugboard.forward_map, (hpb l).2, Option.bind_eq_bind, Option.some_bind, pure,
      Option.some.injEq]
    omega
  have g2 : rf.reflect (rf.mapping k - 65) = some p1 := by
    simp only [Reflector.reflect, (hrf k).2, Option.bind_eq_bind, Option.some_bind, pure,
      Option.some.injEq]
    omega
  have g4 : pb.backward_map (pb.mapping j - 65) = some L := by
    simp only [Plugboard.backward_map, (hpb j).2, Option.some.injEq]
    omega
  simp [process, g0, h3f, g2, h1b, g4]

/-! ## The stepping transition, index by index -/

theorem stepping_carry_index (rest : List Rotor) :
    ∀ (p : Rotor) (i : Nat) (q r1 : Rotor),
      (p :: stepping_carry p rest)[i]? = some q → rest[i]? = some r1 →
        (stepping_carry p rest)[i]? =
          some (if q.has_notch_at_current_pos then r1.advance else r1) := by
  induction rest with
  | nil => intro p i q r1 _ h; simp at h
  | cons r rest ih =>
    intro p i q r1 hq hr
    cases i with
    | zero =>
      simp only [List.getElem?_cons_zero, Option.some.injEq] at hq hr
      subst hq; subst hr
      simp [stepping_carry]
    | succ i =>
      simp only [stepping_carry, List.getElem?_cons_succ] at hq hr ⊢
      exact ih _ i q r1 hq hr

theorem stepping_index (rs : List Rotor) (i : Nat) (q r1 : Rotor)
    (hq : (stepping rs)[i]? = some q) (hr : rs[i + 1]? = some r1) :
    (stepping rs)[i + 1]? = some (if q.has_notch_at_current_pos then r1.advance else r1) := by
  cases rs with
  | nil => simp at hr
  | cons r0 rest =>
    simp only [stepping, List.getElem?_cons_succ] at hq hr ⊢
    exact stepping_carry_index rest _ i q r1 hq hr

theorem stepping_head (r0 : Rotor) (rest : List Rotor) :
    (stepping (r0 :: rest))[0]? = some r0.advance := by
  simp [stepping]

theorem stepping_cell (rs : List Rotor) (i : Nat) (r : Rotor) (hr : rs[i]? = some r) :
    (stepping rs)[i]? = some r ∨ (stepping rs)[i]? = some r.advance := by
  cases i with
  | zero =>
    cases rs with
    | nil => simp at hr
    | cons r0 rest =>
      simp only [List.getElem?_cons_zero, Option.some.injEq] at hr
      subst hr
      exact Or.inr (stepping_head _ _)
  | succ i =>
    have hlt : i < (stepping rs).length := by
      rw [stepping_length]
      have := (List.getElem?_eq_some_iff.mp hr).1
      omega
    have h := stepping_index rs i _ r (List.getElem?_eq_getElem hlt) hr
    rw [h]
    split
    · exact Or.inr rfl
    · exact Or.inl rfl

theorem Rotor.backward_loop_in_range (r : Rotor) (hp : IsPermutation r.mapping)
    (hs : IsPos r.start_pos) (x : Int) (hx : IsPos x) :
    ∃ i, Rotor.backward_loop r.mapping ((x + r.start_pos).tmod 26) 27 0 = some i ∧ IsPos i := by
  unfold IsPos at hs hx
  have hmod : (x + r.start_pos).tmod 26 = (x + r.start_pos) % 26 :=
    Int.tmod_eq_emod (by omega) (by decide)
  obtain ⟨j, hj⟩ := hp.surj ((x + r.start_pos) % 26) (by unfold IsPos; omega)
  have hfind := Rotor.backward_loop_find r.mapping _ j hj
    (fun k hk h => absurd (hp.2 (h.trans hj.symm)) (Fin.ne_of_lt hk)) 27 0 (by omega) (by omega)
  simp only [Nat.cast_zero] at hfind
  rw [hmod]
  exact ⟨_, hfind, by unfold IsPos; omega⟩

/-! ## The claims -/

/-- C1. Reciprocity of `Enigma::press_key`: for a machine whose plugboard table
is an involution, whose reflector table is a fixed-point-free involution, whose
rotor wirings are permutations of `[0,26)` and whose start positions lie in
`[0,26)`, and for a letter `L` in `'A'..'Z'`, the call `press_key(L)` returns,
and whenever it returns `C`, the call `press_key(C)` from the same state
returns `L` and leaves the rotors in the same state. -/
theorem Enigma.press_key_reciprocity (e : Enigma)
    (hwf : e.num_rotors = (e.rotors.length : Int))
    (hpb : IsInvolution e.pb.mapping) (hrf : IsInvolution e.rf.mapping)
    (_hnf : NoFixedPoint e.rf.mapping) (hv : RotorsValid e.rotors)
    (L : Int) (hL : IsLetter L) :
    (∃ C e1, e.press_key L = some (C, e1)) ∧
      ∀ C e1, e.press_key L = some (C, e1) → IsLetter C ∧ e.press_key C = some (L, e1) := by
  have hpos : ∀ r ∈ e.rotors, IsPos r.start_pos := fun r hr => (hv r hr).2
  obtain ⟨C, hC, h1, h2⟩ := process_reciprocal e.pb e.rf e.rotors hpb hrf hv L hL
  have k1 := Enigma.press_key_eq e hwf hpos L
  have k2 := Enigma.press_key_eq e hwf hpos C
  rw [h1] at k1
  rw [h2] at k2
  refine ⟨⟨_, _, k1⟩, ?_⟩
  intro C1 e1 hk
  rw [k1] at hk
  simp only [Option.map_some', Option.some.injEq, Prod.mk.injEq] at hk
  obtain ⟨hc, he⟩ := hk
  subst hc; subst he
  exact ⟨hC, k2⟩

/-- Witness of C1 on the three-rotor machine and the letter `'A'`. -/
theorem Enigma.press_key_reciprocity_witness :
    demoMachine.num_rotors = (demoMachine.rotors.length : Int) ∧
    IsInvolution demoMachine.pb.mapping ∧ IsInvolution demoMachine.rf.mapping ∧
    NoFixedPoint demoMachine.rf.mapping ∧ RotorsValid demoMachine.rotors ∧ IsLetter 65 ∧
    ((∃ C e1, demoMachine.press_key 65 = some (C, e1)) ∧
      ∀ C e1, demoMachine.press_key 65 = some (C, e1) →
        IsLetter C ∧ demoMachine.press_key C = some (65, e1)) :=
  ⟨by decide, by decide, by decide, by decide, by decide, by decide,
    Enigma.press_key_reciprocity demoMachine (by decide) (by decide) (by decide) (by decide)
      (by decide) 65 (by decide)⟩

/-- C2. Rotor round trip, forward then backward: for a rotor whose mapping is a
permutation of `[0,26)`, a start position in `[0,26)` and an input position in
`[0,26)`, `forward_map` returns a position and `backward_map` of it, at the
same start position, returns the input. -/
theorem Rotor.backward_map_forward_map (r : Rotor) (hp : IsPermutation r.mapping)
    (hs : IsPos r.start_pos) (input_pos : Int) (hx : IsPos input_pos) :
    ∃ y, r.forward_map input_pos = some y ∧ r.backward_map y = some input_pos := by
  obtain ⟨y, hf, _, hb⟩ := r.forward_then_backward hp hs input_pos hx
  exact ⟨y, hf, hb⟩

/-- Witness of C2 on rotor I at start position 7 and input position 3. -/
theorem Rotor.backward_map_forward_map_witness :
    IsPermutation (rotorI 7).mapping ∧ IsPos (rotorI 7).start_pos ∧ IsPos 3 ∧
    ∃ y, (rotorI 7).forward_map 3 = some y ∧ (rotorI 7).backward_map y = some 3 :=
  ⟨by decide, by decide, by decide,
    Rotor.backward_map_forward_map (rotorI 7) (by decide) (by decide) 3 (by decide)⟩

/-- C3. Rotor round trip, backward then forward: for a rotor whose mapping is a
permutation of `[0,26)`, a start position in `[0,26)` and an input position in
`[0,26)`, `backward_map` returns a position and `forward_map` of it, at the
same start position, returns the input. -/
theorem Rotor.forward_map_backward_map (r : Rotor) (hp : IsPermutation r.mapping)
    (hs : IsPos r.start_pos) (input_pos : Int) (hx : IsPos input_pos) :
    ∃ y, r.backward_map input_pos = some y ∧ r.forward_map y = some input_pos := by
  obtain ⟨y, hb, _, hf⟩ := r.backward_then_forward hp hs input_pos hx
  exact ⟨y, hb, hf⟩

/-- Witness of C3 on rotor II at start position 25 and input position 0. -/
theorem Rotor.forward_map_backward_map_witness :
    IsPermutation (rotorII 25).mapping ∧ IsPos (rotorII 25).start_pos ∧ IsPos 0 ∧
    ∃ y, (rotorII 25).backward_map 0 = some y ∧ (rotorII 25).forward_map y = some 0 :=
  ⟨by decide, by decide, by decide,
    Rotor.forward_map_backward_map (rotorII 25) (by decide) (by decide) 0 (by decide)⟩

/-- C4. Stepping transition of `Enigma::press_key` on a stack of `n >= 1` rotors
with all start positions in `[0,26)`: the stepping block returns a stack `rs1`
of the same length, which is the rotor state after any returning `press_key`;
rotor 0 moves to `(old + 1) mod 26`; rotor `i + 1` moves to `(old + 1) mod 26`
if rotor `i`, at its position in `rs1`, is on one of its notches, and keeps its
position otherwise; every rotor keeps its wiring and notch set and moves by at
most one position. -/
theorem Enigma.press_key_stepping (e : Enigma)
    (hwf : e.num_rotors = (e.rotors.length : Int)) (hn : 1 ≤ e.rotors.length)
    (hpos : ∀ r ∈ e.rotors, IsPos r.start_pos) :
    ∃ rs1, e.step = some rs1 ∧ rs1.length = e.rotors.length ∧
      (∀ input out e1, e.press_key input = some (out, e1) → e1.rotors = rs1) ∧
      (∀ r0 : Rotor, e.rotors[0]? = some r0 →
        ∃ q0, rs1[0]? = some q0 ∧ q0.start_pos = (r0.start_pos + 1) % 26) ∧
      (∀ (i : Nat) (q r : Rotor), rs1[i]? = some q → e.rotors[i + 1]? = some r →
        ∃ q1, rs1[i + 1]? = some q1 ∧
          q1.start_pos = if q.check_notch q.get_start_pos = some true
            then (r.start_pos + 1) % 26 else r.start_pos) ∧
      (∀ (i : Nat) (r : Rotor), e.rotors[i]? = some r →
        ∃ q, rs1[i]? = some q ∧ q.mapping = r.mapping ∧ q.notch = r.notch ∧
          (q.start_pos = r.start_pos ∨ q.start_pos = (r.start_pos + 1) % 26)) := by
  have hne : e.rotors ≠ [] := by
    intro h; rw [h] at hn; simp at hn
  refine ⟨stepping e.rotors, Enigma.step_eq e hwf hne hpos, stepping_length _, ?_, ?_, ?_, ?_⟩
  · intro input out e1 hk
    rw [Enigma.press_key_eq e hwf hpos] at hk
    cases hproc : process e.pb e.rf e.rotors input with
    | none => rw [hproc] at hk; simp at hk
    | some res =>
      have hres : res.2 = stepping e.rotors := by
        simp only [process, Option.bind_eq_some] at hproc
        obtain ⟨_, _, _, _, _, _, _, _, _, _, h⟩ := hproc
        simp only [Option.some.injEq] at h
        rw [← h]
      rw [hproc] at hk
      simp only [Option.map_some', Option.some.injEq, Prod.mk.injEq] at hk
      rw [← hk.2, hres]
  · intro r0 h0
    cases hrs : e.rotors with
    | nil => exact absurd hrs hne
    | cons a rest =>
      rw [hrs] at h0
      simp only [List.getElem?_cons_zero, Option.some.injEq] at h0
      subst h0
      exact ⟨_, stepping_head _ _, rfl⟩
  · intro i q r hq hr
    refine ⟨_, stepping_index e.rotors i q r hq hr, ?_⟩
    have hqpos : IsPos q.start_pos :=
      stepping_pos e.rotors hpos q (List.getElem?_mem hq)
    rw [Rotor.check_notch_eq q hqpos]
    cases q.has_notch_at_current_pos <;> simp [Rotor.advance]
  · intro i r hr
    rcases stepping_cell e.rotors i r hr with h | h
    · exact ⟨_, h, rfl, rfl, Or.inl rfl⟩
    · exact ⟨_, h, rfl, rfl, Or.inr rfl⟩

/-- Witness of C4 on the three-rotor machine. -/
theorem Enigma.press_key_stepping_witness :
    demoMachine.num_rotors = (demoMachine.rotors.length : Int) ∧
    1 ≤ demoMachine.rotors.length ∧ (∀ r ∈ demoMachine.rotors, IsPos r.start_pos) ∧
    ∃ rs1, demoMachine.step = some rs1 ∧ rs1.length = demoMachine.rotors.length ∧
      (∀ input out e1, demoMachine.press_key input = some (out, e1) → e1.rotors = rs1) ∧
      (∀ r0 : Rotor, demoMachine.rotors[0]? = some r0 →
        ∃ q0, rs1[0]? = some q0 ∧ q0.start_pos = (r0.start_pos + 1) % 26) ∧
      (∀ (i : Nat) (q r : Rotor), rs1[i]? = some q → demoMachine.rotors[i + 1]? = some r →
        ∃ q1, rs1[i + 1]? = some q1 ∧
          q1.start_pos = if q.check_notch q.get_start_pos = some true
            then (r.start_pos + 1) % 26 else r.start_pos) ∧
      (∀ (i : Nat) (r : Rotor), demoMachine.rotors[i]? = some r →
        ∃ q, rs1[i]? = some q ∧ q.mapping = r.mapping ∧ q.notch = r.notch ∧
          (q.start_pos = r.start_pos ∨ q.start_pos = (r.start_pos + 1) % 26)) :=
  ⟨by decide, by decide, by decide,
    Enigma.press_key_stepping demoMachine (by decide) (by decide) (by decide)⟩

/-- C5, as amended: in a `press_key` transition on `n >= 3` rotors with all start
positions in `[0,26)`, for every `i >= 1`, if rotor `i` did not advance (its
`start_pos` is unchanged), then rotor `i + 1` advances by one position when
rotor `i`'s unchanged `start_pos` is one of its notch positions, and keeps its
position when it is not. -/
theorem Enigma.press_key_resting_notch (e : Enigma)
    (hwf : e.num_rotors = (e.rotors.length : Int)) (hn : 3 ≤ e.rotors.length)
    (hpos : ∀ r ∈ e.rotors, IsPos r.start_pos) :
    ∃ rs1, e.step = some rs1 ∧
      ∀ (i : Nat) (r q r1 : Rotor), 1 ≤ i → e.rotors[i]? = some r → rs1[i]? = some q →
        q.start_pos = r.start_pos → e.rotors[i + 1]? = some r1 →
        ∃ q1, rs1[i + 1]? = some q1 ∧
          q1.start_pos = if r.check_notch r.get_start_pos = some true
            then (r1.start_pos + 1) % 26 else r1.start_pos := by
  have hne : e.rotors ≠ [] := by
    intro h; rw [h] at hn; simp at hn
  refine ⟨stepping e.rotors, Enigma.step_eq e hwf hne hpos, ?_⟩
  intro i r q r1 _ hr hq hsame hr1
  refine ⟨_, stepping_index e.rotors i q r1 hq hr1, ?_⟩
  have hrpos : IsPos r.start_pos := hpos r (List.getElem?_mem hr)
  have hqr : q.has_notch_at_current_pos = r.has_notch_at_current_pos := by
    rcases stepping_cell e.rotors i r hr with h | h
    · rw [h] at hq
      simp only [Option.some.injEq] at hq
      rw [← hq]
    · rw [h] at hq
      simp only [Option.some.injEq] at hq
      have hn2 : q.notch = r.notch := by rw [← hq]; rfl
      simp only [Rotor.has_notch_at_current_pos, hn2, hsame]
  rw [Rotor.check_notch_eq r hrpos, hqr]
  cases r.has_notch_at_current_pos <;> simp [Rotor.advance]

/-- Witness of the amended C5 on the three-rotor machine. -/
theorem Enigma.press_key_resting_notch_witness :
    demoMachine.num_rotors = (demoMachine.rotors.length : Int) ∧
    3 ≤ demoMachine.rotors.length ∧ (∀ r ∈ demoMachine.rotors, IsPos r.start_pos) ∧
    ∃ rs1, demoMachine.step = some rs1 ∧
      ∀ (i : Nat) (r q r1 : Rotor), 1 ≤ i → demoMachine.rotors[i]? = some r → rs1[i]? = some q →
        q.start_pos = r.start_pos → demoMachine.rotors[i + 1]? = some r1 →
        ∃ q1, rs1[i + 1]? = some q1 ∧
          q1.start_pos = if r.check_notch r.get_start_pos = some true
            then (r1.start_pos + 1) % 26 else r1.start_pos :=
  ⟨by decide, by decide, by decide,
    Enigma.press_key_resting_notch demoMachine (by decide) (by decide) (by decide)⟩

/-- C5 as stated fails: on the three-rotor machine with positions `[0, 4, 0]`,
whose rotor 1 rests on its notch position 4, `press_key('A')` leaves rotor 1 at
position 4 (it did not advance) and moves rotor 2 from 0 to 1. -/
theorem Enigma.press_key_resting_notch_counterexample :
    3 ≤ demoMachine.rotors.length ∧
    demoMachine.rotors.map Rotor.start_pos = [0, 4, 0] ∧
    (rotorII 4).check_notch (rotorII 4).get_start_pos = some true ∧
    ∃ out e1, demoMachine.press_key 65 = some (out, e1) ∧
      e1.rotors.map Rotor.start_pos = [1, 4, 1] :=
  ⟨by decide, by decide, by decide, _, _, rfl, by decide⟩

/-- C6. Composition and order of `Enigma::press_key`: for a machine with
permutation wirings, start positions in `[0,26)` and letter-valued plugboard
and reflector tables, and a letter `L`, the stepping block is run once from
the pre-call rotors and yields `rs1` (the pre-call rotors when there is no
rotor); the call returns the letter
`pb.backward_map(B_0(... B_{n-1}(reflect(F_{n-1}(... F_0(pb.forward_map(L)))))))`
with every `F_i` and `B_i` taken at the positions of `rs1`, and the machine is
left with the rotors `rs1`. -/
theorem Enigma.press_key_composition (e : Enigma)
    (hwf : e.num_rotors = (e.rotors.length : Int))
    (hpb : LetterTable e.pb.mapping) (hrf : LetterTable e.rf.mapping)
    (hv : RotorsValid e.rotors) (L : Int) (hL : IsLetter L) :
    ∃ rs1 p0 p1 p2 p3 out,
      (if e.num_rotors ≠ 0 then e.step else some e.rotors) = some rs1 ∧
      rs1 = stepping e.rotors ∧
      e.pb.forward_map L = some p0 ∧ forward_chain rs1 p0 = some p1 ∧
      e.rf.reflect p1 = some p2 ∧ backward_chain rs1 p2 = some p3 ∧
      e.pb.backward_map p3 = some out ∧
      e.press_key L = some (out, { e with rotors := rs1 }) := by
  have hpos : ∀ r ∈ e.rotors, IsPos r.start_pos := fun r hr => (hv r hr).2
  obtain ⟨p0, p1, p2, p3, out, h0, h1, h2, h3, h4, _, hproc⟩ :=
    process_total e.pb e.rf e.rotors hpb hrf hv L hL
  refine ⟨stepping e.rotors, p0, p1, p2, p3, out, ?_, rfl, h0, h1, h2, h3, h4, ?_⟩
  · by_cases hz : e.num_rotors = 0
    · have hnil : e.rotors = [] := by
        rw [hwf] at hz
        exact List.length_eq_zero.mp (by omega)
      simp [hz, hnil, stepping]
    · have hne : e.rotors ≠ [] := by
        intro hnil
        apply hz
        rw [hwf, hnil]; rfl
      simp [hz, Enigma.step_eq e hwf hne hpos]
  · rw [Enigma.press_key_eq e hwf hpos, hproc]
    rfl

/-- Witness of C6 on the three-rotor machine and the letter `'A'`. -/
theorem Enigma.press_key_composition_witness :
    demoMachine.num_rotors = (demoMachine.rotors.length : Int) ∧
    LetterTable demoMachine.pb.mapping ∧ LetterTable demoMachine.rf.mapping ∧
    RotorsValid demoMachine.rotors ∧ IsLetter 65 ∧
    ∃ rs1 p0 p1 p2 p3 out,
      (if demoMachine.num_rotors ≠ 0 then demoMachine.step else some demoMachine.rotors)
        = some rs1 ∧
      rs1 = stepping demoMachine.rotors ∧
      demoMachine.pb.forward_map 65 = some p0 ∧ forward_chain rs1 p0 = some p1 ∧
      demoMachine.rf.reflect p1 = some p2 ∧ backward_chain rs1 p2 = some p3 ∧
      demoMachine.pb.backward_map p3 = some out ∧
      demoMachine.press_key 65 = some (out, { demoMachine with rotors := rs1 }) :=
  ⟨by decide, by decide, by decide, by decide, by decide,
    Enigma.press_key_composition demoMachine (by decide) (by decide) (by decide) (by decide)
      65 (by decide)⟩

/-- C7. Totality of the engine on validated tables: for a machine whose rotor
wirings are permutations of `[0,26)`, whose plugboard and reflector tables hold
letters `'A'..'Z'` and whose start positions lie in `[0,26)`, and for an input
letter in `'A'..'Z'`, `press_key` returns (no table access is out of range),
the returned character is a letter `'A'..'Z'`, every start position is left in
`[0,26)`, and the search loop of `backward_map` of every rotor of the resulting
stack stops at an index in `[0,26)` for every input position. -/
theorem Enigma.press_key_total (e : Enigma)
    (hwf : e.num_rotors = (e.rotors.length : Int))
    (hpb : LetterTable e.pb.mapping) (hrf : LetterTable e.rf.mapping)
    (hv : RotorsValid e.rotors) (L : Int) (hL : IsLetter L) :
    ∃ out e1, e.press_key L = some (out, e1) ∧ IsLetter out ∧
      (∀ r ∈ e1.rotors, IsPos r.start_pos) ∧
      (∀ r ∈ e1.rotors, ∀ x, IsPos x →
        ∃ i, Rotor.backward_loop r.mapping ((x + r.start_pos).tmod 26) 27 0 = some i ∧
          IsPos i) := by
  have hpos : ∀ r ∈ e.rotors, IsPos r.start_pos := fun r hr => (hv r hr).2
  obtain ⟨p0, p1, p2, p3, out, _, _, _, _, _, hout, hproc⟩ :=
    process_total e.pb e.rf e.rotors hpb hrf hv L hL
  have hsv := stepping_valid e.rotors hv
  refine ⟨out, { e with rotors := stepping e.rotors }, ?_, hout, ?_, ?_⟩
  · rw [Enigma.press_key_eq e hwf hpos, hproc]
    rfl
  · intro r hr
    exact (hsv r hr).2
  · intro r hr x hx
    exact r.backward_loop_in_range (hsv r hr).1 (hsv r hr).2 x hx

/-- Witness of C7 on the three-rotor machine and the letter `'Z'`. -/
theorem Enigma.press_key_total_witness :
    demoMachine.num_rotors = (demoMachine.rotors.length : Int) ∧
    LetterTable demoMachine.pb.mapping ∧ LetterTable demoMachine.rf.mapping ∧
    RotorsValid demoMachine.rotors ∧ IsLetter 90 ∧
    ∃ out e1, demoMachine.press_key 90 = some (out, e1) ∧ IsLetter out ∧
      (∀ r ∈ e1.rotors, IsPos r.start_pos) ∧
      (∀ r ∈ e1.rotors, ∀ x, IsPos x →
        ∃ i, Rotor.backward_loop r.mapping ((x + r.start_pos).tmod 26) 27 0 = some i ∧
          IsPos i) :=
  ⟨by decide, by decide, by decide, by decide, by decide,
    Enigma.press_key_total demoMachine (by decide) (by decide) (by decide) (by decide)
      90 (by decide)⟩

/-- C8. Golden vector: on the one-rotor machine with identity wiring and no
notch, identity plugboard, reflector pairing 0-1, 2-3, ..., 24-25 and rotor at
position 0, `press_key('A')` returns `'B'` (code 66) and leaves the rotor at
position 1. -/
theorem Enigma.press_key_golden :
    ∃ e1, goldenMachine.press_key 65 = some (66, e1) ∧
      e1.rotors.map Rotor.start_pos = [1] :=
  ⟨_, rfl, by decide⟩

/-- C9. Zero-rotor configuration: for a machine with `num_rotors == 0` and a
letter `L`, `press_key(L)` is
`pb.backward_map(rf.reflect(pb.forward_map(L)))`, whatever the rotor array
holds, and the machine is returned unchanged; with letter-valued plugboard and
reflector tables the call returns a letter. -/
theorem Enigma.press_key_zero_rotors (e : Enigma) (h0 : e.num_rotors = 0)
    (L : Int) (hL : IsLetter L) :
    e.press_key L =
      ((e.pb.forward_map L).bind fun p => (e.rf.reflect p).bind fun q =>
        (e.pb.backward_map q).map fun out => (out, e)) ∧
    (LetterTable e.pb.mapping → LetterTable e.rf.mapping →
      ∃ out, e.press_key L = some (out, e) ∧ IsLetter out) := by
  have heq : e.press_key L =
      ((e.pb.forward_map L).bind fun p => (e.rf.reflect p).bind fun q =>
        (e.pb.backward_map q).map fun out => (out, e)) := by
    obtain ⟨pb, rotors, n, rf⟩ := e
    simp only at h0
    subst h0
    simp only [Enigma.press_key, Enigma.forward, Enigma.backward, ne_eq, not_true_eq_false,
      if_false, Int.toNat_zero, List.range_zero, List.foldlM_nil, bind, pure,
      Option.some_bind]
    cases pb.forward_map L with
    | none => rfl
    | some p =>
      simp only [Option.some_bind]
      cases rf.reflect p with
      | none => rfl
      | some q =>
        simp only [Option.some_bind]
        cases pb.backward_map q <;> rfl
  refine ⟨heq, ?_⟩
  intro hpb hrf
  obtain ⟨j, _, hf⟩ := e.pb.forward_lookup L hL
  obtain ⟨k, _, hr⟩ := e.rf.reflect_lookup _ (letter_sub_pos _ (hpb j))
  obtain ⟨l, _, hb⟩ := e.pb.backward_lookup _ (letter_sub_pos _ (hrf k))
  exact ⟨_, by rw [heq, hf, Option.some_bind, hr, Option.some_bind, hb]; rfl, hpb l⟩

/-- Witness of C9 on the machine with no rotor and the letter `'Q'`. -/
theorem Enigma.press_key_zero_rotors_witness :
    zeroRotorMachine.num_rotors = 0 ∧ IsLetter 81 ∧
    (zeroRotorMachine.press_key 81 =
      ((zeroRotorMachine.pb.forward_map 81).bind fun p =>
        (zeroRotorMachine.rf.reflect p).bind fun q =>
          (zeroRotorMachine.pb.backward_map q).map fun out => (out, zeroRotorMachine)) ∧
    (LetterTable zeroRotorMachine.pb.mapping → LetterTable zeroRotorMachine.rf.mapping →
      ∃ out, zeroRotorMachine.press_key 81 = some (out, zeroRotorMachine) ∧ IsLetter out)) :=
  ⟨by decide, by decide, Enigma.press_key_zero_rotors zeroRotorMachine (by decide) 81 (by decide)⟩

/-- C10, evaluated on two accepted files.  The reflector file `I.rf` holding
`0 00 2 3 ... 24 25` and the reflector file `reflector.txt` holding
`0 0 2 3 ... 24 25` are both loaded without error by `get_reflector_mapping`;
in the resulting table position 0 reflects to itself and cell 1 holds no
letter. -/
theorem get_reflector_mapping_accepts_self_pair :
    (∃ m, get_reflector_mapping "I.rf" selfPairFile = Except.ok m ∧
      Reflector.reflect ⟨m⟩ 0 = some 0 ∧ ¬ IsLetter (m 1)) ∧
    (∃ m, get_reflector_mapping "reflector.txt" plainSelfPairFile = Except.ok m ∧
      Reflector.reflect ⟨m⟩ 0 = some 0 ∧ ¬ IsLetter (m 1)) :=
  ⟨⟨_, rfl, by decide, by decide⟩, ⟨_, rfl, by decide, by decide⟩⟩

/-! ## Numeric tokens -/

theorem NumericToken.takeWhile_eq {t : String} (h : NumericToken t) :
    (t.data.takeWhile fun c => !nonNumeric c) = t.data := by
  apply List.takeWhile_eq_self_iff.mpr
  intro c hc
  have := h.2.1 c hc
  simp only [nonNumeric, Bool.not_eq_true', Bool.or_eq_false_iff, decide_eq_false_iff_not]
  omega

theorem NumericToken.stoi_eq {t : String} (h : NumericToken t) :
    stoi t = .ok (tokenValue t) := by
  have hne : t.data.isEmpty = false := by
    cases hd : t.data with
    | nil => exact absurd hd h.1
    | cons c cs => rfl
  have hv := h.2.2
  have hle : ¬ digitsValue t.data > 2147483647 := by omega
  simp only [stoi, h.takeWhile_eq, hne, hle, tokenValue, if_false, Bool.false_eq_true]

theorem NumericToken.value_range {t : String} (h : NumericToken t) :
    0 ≤ tokenValue t ∧ tokenValue t ≤ 25 := by
  have hv := h.2.2
  simp only [tokenValue]
  omega

theorem NumericToken.check_string_eq {t : String} (h : NumericToken t) (filename : String) :
    check_string t filename = .ok () := by
  have hany : t.data.any nonNumeric = false := by
    apply List.any_eq_false.mpr
    intro c hc
    have := h.2.1 c hc
    simp only [nonNumeric, Bool.or_eq_true, decide_eq_true_eq, not_or]
    omega
  have hr := h.value_range
  have hcond : ¬ (tokenValue t < 0 ∨ tokenValue t > 25) := by omega
  simp only [check_string, hany, h.stoi_eq, hcond, Bool.false_eq_true, if_false, bind, Except.bind,
    pure, Except.pure]

theorem NumericToken.trim_eq {t : String} (h : NumericToken t) : trim t = t := by
  have hf : (t.data.filter fun c => decide (c ≠ '\n')) = t.data := by
    apply List.filter_eq_self.mpr
    intro c hc
    have := h.2.1 c hc
    have hne : c ≠ '\n' := by
      intro hcn
      rw [hcn] at this
      revert this
      decide
    simp [hne]
  simp only [trim, hf]

/-! ## The loop of `get_start_positions` -/

theorem tokensOf_cons (p : String) (rest : List String) :
    tokensOf (p :: rest) =
      if (trim p).data.isEmpty then tokensOf rest else trim p :: tokensOf rest := by
  simp only [tokensOf, List.map_cons, List.filter_cons]
  cases (trim p).data.isEmpty <;> simp

theorem get_start_positions_body_skip (filename : String) (st : PositionsState) (p : String)
    (h : (trim p).data.isEmpty = true) :
    get_start_positions_body filename st p = .ok st := by
  simp only [get_start_positions_body, h, if_true, pure, Except.pure]

theorem get_start_positions_body_token (filename : String) (st : PositionsState) (p : String)
    (h : (trim p).data.isEmpty = false) (ht : NumericToken (trim p)) :
    get_start_positions_body filename st p =
      .ok { string_count := st.string_count + 1,
            rotor_positions := st.rotor_positions.set st.string_count (tokenValue (trim p)) } := by
  simp only [get_start_positions_body, h, Bool.false_eq_true, if_false, ht.check_string_eq,
    ht.stoi_eq, bind, Except.bind, pure, Except.pure]

theorem get_start_positions_loop (filename : String) (pieces : List String) :
    ∀ st : PositionsState, (∀ t ∈ tokensOf pieces, NumericToken t) →
      ∃ st1, pieces.foldlM (get_start_positions_body filename) st = .ok st1 ∧
        st1.string_count = st.string_count + (tokensOf pieces).length ∧
        st1.rotor_positions.length = st.rotor_positions.length ∧
        (∀ k, k < st.string_count → st1.rotor_positions[k]? = st.rotor_positions[k]?) ∧
        (∀ j t, (tokensOf pieces)[j]? = some t →
          st.string_count + j < st.rotor_positions.length →
          st1.rotor_positions[st.string_count + j]? = some (tokenValue t)) := by
  induction pieces with
  | nil =>
    intro st _
    exact ⟨st, rfl, by simp [tokensOf], rfl, fun _ _ => rfl, by simp [tokensOf]⟩
  | cons p rest ih =>
    intro st htok
    rw [tokensOf_cons] at htok ⊢
    cases hemp : (trim p).data.isEmpty with
    | true =>
      simp only [hemp, if_true] at htok ⊢
      simp only [List.foldlM_cons, get_start_positions_body_skip filename st p hemp, bind,
        Except.bind]
      exact ih st htok
    | false =>
      simp only [hemp, Bool.false_eq_true, if_false] at htok ⊢
      have ht : NumericToken (trim p) := htok _ (List.mem_cons_self _ _)
      have hrest : ∀ t ∈ tokensOf rest, NumericToken t :=
        fun t h => htok t (List.mem_cons_of_mem _ h)
      simp only [List.foldlM_cons, get_start_positions_body_token filename st p hemp ht,
        List.length_cons, bind, Except.bind]
      obtain ⟨st1, hrun, hcount, hlen, hkeep, hvals⟩ := ih
        { string_count := st.string_count + 1,
          rotor_positions := st.rotor_positions.set st.string_count (tokenValue (trim p)) } hrest
      dsimp only at hcount hlen hkeep hvals
      simp only [List.length_set] at hlen hvals
      refine ⟨st1, hrun, by omega, hlen, ?_, ?_⟩
      · intro k hk
        rw [hkeep k (by omega), List.getElem?_set_ne (by omega)]
      · intro j t hj hin
        cases j with
        | zero =>
          simp only [List.getElem?_cons_zero, Option.some.injEq] at hj
          rw [← hj, Nat.add_zero, hkeep _ (by omega),
            List.getElem?_set_self (by simpa using hin)]
        | succ j =>
          simp only [List.getElem?_cons_succ] at hj
          have := hvals j t hj (by omega)
          rw [← this]
          congr 1
          omega

/-! ## What `check_string` does on every string -/

theorem check_string_non_numeric (t filename : String)
    (h : ∃ c ∈ t.data, c.toNat < 48 ∨ 57 < c.toNat) :
    check_string t filename = .error Err.NON_NUMERIC_CHARACTER := by
  obtain ⟨c, hc, hcn⟩ := h
  have hany : t.data.any nonNumeric = true := by
    apply List.any_eq_true.mpr
    refine ⟨c, hc, ?_⟩
    simp only [nonNumeric, Bool.or_eq_true, decide_eq_true_eq]
    omega
  simp only [check_string, hany, if_true, bind, Except.bind, throw, throwThe,
    MonadExceptOf.throw]

theorem check_string_digits (t filename : String)
    (hd : ∀ c ∈ t.data, 48 ≤ c.toNat ∧ c.toNat ≤ 57) :
    check_string t filename =
      if t.data = [] then .error Err.STD_INVALID_ARGUMENT
      else if digitsValue t.data > 2147483647 then .error Err.STD_OUT_OF_RANGE
      else if digitsValue t.data > 25 then .error Err.INVALID_INDEX
      else .ok () := by
  have hany : t.data.any nonNumeric = false := by
    apply List.any_eq_false.mpr
    intro c hc
    have := hd c hc
    simp only [nonNumeric, Bool.or_eq_true, decide_eq_true_eq, not_or]
    omega
  have htw : (t.data.takeWhile fun c => !nonNumeric c) = t.data := by
    apply List.takeWhile_eq_self_iff.mpr
    intro c hc
    have := hd c hc
    simp only [nonNumeric, Bool.not_eq_true', Bool.or_eq_false_iff, decide_eq_false_iff_not]
    omega
  simp only [check_string, hany, Bool.false_eq_true, if_false, stoi, htw, bind, Except.bind,
    pure, Except.pure]
  cases hdat : t.data with
  | nil => simp
  | cons c cs =>
    simp only [List.isEmpty_cons, Bool.false_eq_true, if_false, reduceCtorEq]
    by_cases hbig : digitsValue (c :: cs) > 2147483647
    · simp [hbig]
    · simp only [hbig, if_false]
      by_cases h25 : digitsValue (c :: cs) > 25
      · have : ((digitsValue (c :: cs) : Nat) : Int) < 0 ∨ ((digitsValue (c :: cs) : Nat) : Int) > 25 := by
          omega
        simp only [this, h25, if_true, throw, throwThe, MonadExceptOf.throw]
      · have : ¬ (((digitsValue (c :: cs) : Nat) : Int) < 0 ∨ ((digitsValue (c :: cs) : Nat) : Int) > 25) := by
          omega
        simp only [this, h25, if_false]

theorem check_string_ok_iff (t filename : String) :
    check_string t filename = .ok () ↔ NumericToken t := by
  constructor
  · intro hok
    by_cases hd : ∀ c ∈ t.data, 48 ≤ c.toNat ∧ c.toNat ≤ 57
    · rw [check_string_digits t filename hd] at hok
      by_cases h1 : t.data = []
      · rw [if_pos h1] at hok; cases hok
      · rw [if_neg h1] at hok
        by_cases h2 : digitsValue t.data > 2147483647
        · rw [if_pos h2] at hok; cases hok
        · rw [if_neg h2] at hok
          by_cases h3 : digitsValue t.data > 25
          · rw [if_pos h3] at hok; cases hok
          · exact ⟨h1, hd, by omega⟩
    · have hex : ∃ c ∈ t.data, c.toNat < 48 ∨ 57 < c.toNat := by
        by_contra hno
        apply hd
        intro c hc
        by_contra hbad
        exact hno ⟨c, hc, by omega⟩
      rw [check_string_non_numeric t filename hex] at hok
      cases hok
  · intro h
    exact h.check_string_eq filename

/-! ## The read loop of `configure_rotor` -/

theorem except_bind_pure {ε α : Type} (x : Except ε α) : (x >>= fun a => pure a) = x := by
  cases x <;> rfl

theorem configure_rotor_body_a_string (filename : String) (st st1 : RotorLoadState)
    (w : String) (h : configure_rotor_body filename st (some w) = .ok st1) :
    st1.a_string = trim w := by
  simp only [configure_rotor_body, Option.getD_some, bind, Except.bind, pure, Except.pure] at h
  cases hc : check_string (trim w) filename with
  | error e => rw [hc] at h; cases h
  | ok u =>
    rw [hc] at h
    simp only at h
    cases hs : stoi (trim w) with
    | error e => rw [hs] at h; cases h
    | ok v =>
      rw [hs] at h
      simp only at h
      by_cases hlt : st.counter < 26
      · simp only [hlt, if_true] at h
        cases h1 : arrayAccess (index26 st.numbers v) with
        | error e => rw [h1] at h; cases h
        | ok seen =>
          rw [h1] at h
          simp only at h
          cases seen with
          | true => simp [throw, throwThe, MonadExceptOf.throw] at h
          | false =>
            simp only [Bool.false_eq_true, if_false] at h
            cases h2 : arrayAccess (update26 st.numbers v true) with
            | error e => rw [h2] at h; cases h
            | ok nums =>
              rw [h2] at h
              simp only at h
              cases h3 : arrayAccess (update26 st.rotor_mapping st.counter v) with
              | error e => rw [h3] at h; cases h
              | ok m =>
                rw [h3] at h
                simp only [Except.ok.injEq] at h
                rw [← h]
      · simp only [hlt, if_false] at h
        cases h1 : arrayAccess (update26 st.notch v true) with
        | error e => rw [h1] at h; cases h
        | ok nt =>
          rw [h1] at h
          simp only [Except.ok.injEq] at h
          rw [← h]

theorem configure_rotor_loop_eq (filename : String) (b : Bool) (ws : List String) :
    ∀ st : RotorLoadState,
      configure_rotor_loop filename b ws st =
        (bodyStrings b ws st.a_string).foldlM
          (fun s t => configure_rotor_body filename s (some t)) st := by
  induction ws with
  | nil =>
    intro st
    simp only [configure_rotor_loop, bodyStrings, List.foldlM_cons, List.foldlM_nil]
    rw [except_bind_pure]
    rfl
  | cons w rest ih =>
    intro st
    simp only [configure_rotor_loop, bodyStrings, List.foldlM_cons]
    cases hb : configure_rotor_body filename st (some w) with
    | error e => rfl
    | ok st1 =>
      have ha := configure_rotor_body_a_string filename st st1 w hb
      simp only [bind, Except.bind]
      cases hc : (rest.isEmpty && !b) with
      | true => simp only [if_true, List.foldlM_nil]
      | false =>
        simp only [Bool.false_eq_true, if_false]
        rw [ih st1, ha]

theorem update26_pos {α : Type} (a : Fin 26 → α) (j : Fin 26) (v : α) :
    update26 a (j.val : Int) v = some (Function.update a j v) := by
  have h : (0 : Int) ≤ (j.val : Int) ∧ (j.val : Int) < 26 := by omega
  simp [update26, h]

theorem NumericToken.value_index {t : String} (h : NumericToken t) :
    ∃ j : Fin 26, (j.val : Int) = tokenValue t := by
  have hr := h.value_range
  exact ⟨⟨(tokenValue t).toNat, by omega⟩, by simp; omega⟩

theorem configure_rotor_body_wiring (filename : String) (st : RotorLoadState) (t : String)
    (ht : NumericToken t) (j k : Fin 26) (hj : (j.val : Int) = tokenValue t)
    (hk : (k.val : Int) = st.counter) :
    configure_rotor_body filename st (some t) =
      if st.numbers j = true then .error Err.INVALID_ROTOR_MAPPING
      else .ok { a_string := t, counter := st.counter + 1,
                 numbers := Function.update st.numbers j true,
                 rotor_mapping := Function.update st.rotor_mapping k (tokenValue t),
                 notch := st.notch } := by
  have hlt : ((k.val : Nat) : Int) < 26 := by omega
  simp only [configure_rotor_body, Option.getD_some, ht.trim_eq, ht.check_string_eq, ht.stoi_eq,
    bind, Except.bind, pure, Except.pure, ← hj, ← hk, hlt, if_true, index26_pos, update26_pos,
    arrayAccess]

theorem configure_rotor_body_notch (filename : String) (st : RotorLoadState) (t : String)
    (ht : NumericToken t) (j : Fin 26) (hj : (j.val : Int) = tokenValue t)
    (hge : ¬ st.counter < 26) :
    configure_rotor_body filename st (some t) =
      .ok { a_string := t, counter := st.counter + 1, numbers := st.numbers,
            rotor_mapping := st.rotor_mapping,
            notch := Function.update st.notch j true } := by
  simp only [configure_rotor_body, Option.getD_some, ht.trim_eq, ht.check_string_eq, ht.stoi_eq,
    bind, Except.bind, pure, Except.pure, hge, if_false, ← hj, update26_pos, arrayAccess]

theorem RotorLoadInv.step_wiring (filename : String) (st : RotorLoadState) (done : List Int)
    (hinv : RotorLoadInv st done) (t : String) (ht : NumericToken t)
    (hlen : done.length < 26) :
    (tokenValue t ∈ done →
      configure_rotor_body filename st (some t) = .error Err.INVALID_ROTOR_MAPPING) ∧
    (tokenValue t ∉ done →
      ∃ st1, configure_rotor_body filename st (some t) = .ok st1 ∧
        RotorLoadInv st1 (done ++ [tokenValue t])) := by
  obtain ⟨hcount, hnum, hmap, hnotch, hnd, hrange⟩ := hinv
  obtain ⟨j, hj⟩ := ht.value_index
  have htake : done.take 26 = done := List.take_of_length_le (by omega)
  rw [htake] at hnum hnd
  have hbody := configure_rotor_body_wiring filename st t ht j ⟨done.length, hlen⟩ hj
    (by simp [hcount])
  rw [hbody]
  constructor
  · intro hmem
    have : st.numbers j = true := (hnum j).mpr (by rw [hj]; exact hmem)
    rw [if_pos this]
  · intro hnot
    have hfalse : ¬ st.numbers j = true := fun h => hnot (by rw [← hj]; exact (hnum j).mp h)
    rw [if_neg hfalse]
    refine ⟨_, rfl, ?_, ?_, ?_, ?_, ?_, ?_⟩
    · simp [hcount]
    · intro v
      rw [List.take_of_length_le (by simp; omega)]
      by_cases hvj : v = j
      · subst hvj
        simp [hj]
      · have hne : (v.val : Int) ≠ tokenValue t := by
          intro h
          apply hvj
          apply Fin.ext
          omega
        simp only [Function.update_noteq hvj, hnum v, List.mem_append, List.mem_singleton, hne,
          or_false]
    · intro i hi
      simp only [List.length_append, List.length_singleton] at hi
      by_cases hik : i = ⟨done.length, hlen⟩
      · subst hik
        simp only [Function.update_same]
        exact List.getElem?_concat_length done _
      · have hlt : i.val < done.length := by
          have : i.val ≠ done.length := fun h => hik (Fin.ext h)
          omega
        simp only [Function.update_noteq hik]
        rw [List.getElem?_append_left hlt]
        exact hmap i hlt
    · intro p
      rw [List.drop_eq_nil_of_le (by simp; omega)]
      have := hnotch p
      rw [List.drop_eq_nil_of_le (by omega)] at this
      exact this
    · rw [List.take_of_length_le (by simp; omega)]
      apply List.nodup_append.mpr
      refine ⟨hnd, List.nodup_singleton _, ?_⟩
      intro x hx hx2
      simp only [List.mem_singleton] at hx2
      exact hnot (hx2 ▸ hx)
    · intro v hv
      simp only [List.mem_append, List.mem_singleton] at hv
      rcases hv with hv | hv
      · exact hrange v hv
      · rw [hv]; exact ht.value_range

theorem RotorLoadInv.step_notch (filename : String) (st : RotorLoadState) (done : List Int)
    (hinv : RotorLoadInv st done) (t : String) (ht : NumericToken t)
    (hlen : 26 ≤ done.length) :
    ∃ st1, configure_rotor_body filename st (some t) = .ok st1 ∧
      RotorLoadInv st1 (done ++ [tokenValue t]) := by
  obtain ⟨hcount, hnum, hmap, hnotch, hnd, hrange⟩ := hinv
  obtain ⟨j, hj⟩ := ht.value_index
  have hbody := configure_rotor_body_notch filename st t ht j hj (by omega)
  rw [hbody]
  refine ⟨_, rfl, ?_, ?_, ?_, ?_, ?_, ?_⟩
  · simp [hcount]
  · intro v
    rw [List.take_append_of_le_length hlen]
    exact hnum v
  · intro i _
    have hlt : i.val < done.length := by have := i.isLt; omega
    rw [List.getElem?_append_left hlt]
    exact hmap i hlt
  · intro p
    rw [List.drop_append_of_le_length hlen]
    by_cases hpj : p = j
    · subst hpj
      simp [hj]
    · have hne : (p.val : Int) ≠ tokenValue t := by
        intro h
        apply hpj
        apply Fin.ext
        omega
      simp only [Function.update_noteq hpj, hnotch p, List.mem_append, List.mem_singleton, hne,
        or_false]
  · rw [List.take_append_of_le_length hlen]
    exact hnd
  · intro v hv
    simp only [List.mem_append, List.mem_singleton] at hv
    rcases hv with hv | hv
    · exact hrange v hv
    · rw [hv]; exact ht.value_range

theorem configure_rotor_fold (filename : String) (toks : List String) :
    ∀ (st : RotorLoadState) (done : List Int), RotorLoadInv st done →
      (∀ t ∈ toks, NumericToken t) →
      (((done ++ toks.map tokenValue).take 26).Nodup →
        ∃ st1, toks.foldlM (fun s t => configure_rotor_body filename s (some t)) st = .ok st1 ∧
          RotorLoadInv st1 (done ++ toks.map tokenValue)) ∧
      (¬ ((done ++ toks.map tokenValue).take 26).Nodup →
        toks.foldlM (fun s t => configure_rotor_body filename s (some t)) st
          = .error Err.INVALID_ROTOR_MAPPING) := by
  induction toks with
  | nil =>
    intro st done hinv _
    simp only [List.map_nil, List.append_nil, List.foldlM_nil]
    exact ⟨fun _ => ⟨st, rfl, hinv⟩, fun h => absurd hinv.2.2.2.2.1 h⟩
  | cons t rest ih =>
    intro st done hinv htok
    have ht : NumericToken t := htok t (List.mem_cons_self _ _)
    have hrest : ∀ x ∈ rest, NumericToken x := fun x hx => htok x (List.mem_cons_of_mem _ hx)
    have hassoc : done ++ (t :: rest).map tokenValue
        = (done ++ [tokenValue t]) ++ rest.map tokenValue := by simp
    rw [hassoc]
    simp only [List.foldlM_cons]
    by_cases hlen : done.length < 26
    · obtain ⟨hdup, hnew⟩ := RotorLoadInv.step_wiring filename st done hinv t ht hlen
      by_cases hmem : tokenValue t ∈ done
      · have hbad : ¬ (((done ++ [tokenValue t]) ++ rest.map tokenValue).take 26).Nodup := by
          intro hnd
          have hpre : ((done ++ [tokenValue t]) ++ rest.map tokenValue).take (done.length + 1)
              = done ++ [tokenValue t] := by
            rw [List.take_append_of_le_length (by simp)]
            exact List.take_of_length_le (by simp)
          have hsub : (done ++ [tokenValue t]).Nodup := by
            rw [← hpre]
            have h2 : (((done ++ [tokenValue t]) ++ rest.map tokenValue).take 26).take
                (done.length + 1) = ((done ++ [tokenValue t]) ++ rest.map tokenValue).take
                (done.length + 1) := by
              rw [List.take_take]
              congr 1
              omega
            rw [← h2]
            exact List.Nodup.sublist (List.take_sublist _ _) hnd
          have := (List.nodup_append.mp hsub).2.2
          exact this hmem (List.mem_singleton_self _)
        rw [hdup hmem]
        exact ⟨fun h => absurd h hbad, fun _ => rfl⟩
      · obtain ⟨st1, hb, hinv1⟩ := hnew hmem
        rw [hb]
        exact ih st1 _ hinv1 hrest
    · obtain ⟨st1, hb, hinv1⟩ := RotorLoadInv.step_notch filename st done hinv t ht (by omega)
      rw [hb]
      exact ih st1 _ hinv1 hrest

theorem bodyStrings_numeric (b : Bool) (ws : List String) :
    ∀ a : String, ws ≠ [] → (∀ w ∈ ws, NumericToken w) →
      bodyStrings b ws a = ws ++ (if b = true then ws.getLast?.toList else []) := by
  induction ws with
  | nil => intro a h; exact absurd rfl h
  | cons w rest ih =>
    intro a _ hnum
    have hw : NumericToken w := hnum w (List.mem_cons_self _ _)
    cases rest with
    | nil =>
      cases b <;> simp [bodyStrings, hw.trim_eq]
    | cons w2 rest2 =>
      have := ih (trim w) (by simp) (fun x hx => hnum x (List.mem_cons_of_mem _ hx))
      simp only [bodyStrings, List.isEmpty_cons, Bool.false_and, Bool.false_eq_true, if_false,
        List.cons_append, List.cons.injEq, true_and] at this ⊢
      rw [this]
      simp [List.getLast?_cons_cons]

theorem configure_rotor_result (filename : String) (f : WordFile) (m0 : Fin 26 → Int)
    (hnum : ∀ t ∈ bodyStrings f.trailing_blank f.words "", NumericToken t) :
    ((((bodyStrings f.trailing_blank f.words "").map tokenValue).take 26).Nodup →
      26 ≤ (bodyStrings f.trailing_blank f.words "").length →
      ∃ st1, RotorLoadInv st1 ((bodyStrings f.trailing_blank f.words "").map tokenValue) ∧
        configure_rotor filename (some f) m0 = .ok (st1.rotor_mapping, st1.notch)) ∧
    (¬ ((((bodyStrings f.trailing_blank f.words "").map tokenValue).take 26).Nodup ∧
        26 ≤ (bodyStrings f.trailing_blank f.words "").length) →
      configure_rotor filename (some f) m0 = .error Err.INVALID_ROTOR_MAPPING) := by
  have hinit : RotorLoadInv
      { a_string := "", counter := 0, numbers := fun _ => false, rotor_mapping := m0,
        notch := fun _ => false } [] := by
    refine ⟨rfl, ?_, ?_, ?_, List.nodup_nil, ?_⟩
    · intro v; simp
    · intro i hi; simp at hi
    · intro p; simp
    · intro v hv; simp at hv
  obtain ⟨hok, herr⟩ := configure_rotor_fold filename
    (bodyStrings f.trailing_blank f.words "") _ [] hinit hnum
  simp only [List.nil_append] at hok herr
  have hunfold : configure_rotor filename (some f) m0 =
      (((bodyStrings f.trailing_blank f.words "").foldlM
          (fun s t => configure_rotor_body filename s (some t))
          { a_string := "", counter := 0, numbers := fun _ => false, rotor_mapping := m0,
            notch := fun _ => false }) >>= fun st =>
        if st.counter < 26 then .error Err.INVALID_ROTOR_MAPPING
        else .ok (st.rotor_mapping, st.notch)) := by
    simp only [configure_rotor, configure_rotor_loop_eq]
    rfl
  constructor
  · intro hnd hlen
    obtain ⟨st1, hrun, hinv⟩ := hok hnd
    refine ⟨st1, hinv, ?_⟩
    have hc : ¬ st1.counter < 26 := by
      rw [hinv.1]; simp only [List.length_map]; omega
    rw [hunfold, hrun]
    simp only [bind, Except.bind, hc, if_false]
  · intro hnot
    by_cases hnd : (((bodyStrings f.trailing_blank f.words "").map tokenValue).take 26).Nodup
    · obtain ⟨st1, hrun, hinv⟩ := hok hnd
      have hc : st1.counter < 26 := by
        rw [hinv.1]; simp only [List.length_map]
        have : ¬ 26 ≤ (bodyStrings f.trailing_blank f.words "").length := fun h => hnot ⟨hnd, h⟩
        omega
      rw [hunfold, hrun]
      simp only [bind, Except.bind, hc, if_true]
    · rw [hunfold, herr hnd]
      rfl

/-- What `configure_rotor` does on a rotor file of at least one word, all words
numeric tokens: it fails with `INVALID_ROTOR_MAPPING` unless the file has 26
words or more and the first 26 values are distinct; otherwise it returns a
permutation wiring whose cell `i` holds the value of word `i`, and the notches
are the values of the words after the first 26 together with, when white space
follows the last word, the value of the last word. -/
theorem configure_rotor_on_tokens (filename : String) (f : WordFile) (m0 : Fin 26 → Int)
    (hne : f.words ≠ []) (hnum : ∀ w ∈ f.words, NumericToken w) :
    (¬ (26 ≤ f.words.length ∧ ((f.words.take 26).map tokenValue).Nodup) →
      configure_rotor filename (some f) m0 = .error Err.INVALID_ROTOR_MAPPING) ∧
    (26 ≤ f.words.length → ((f.words.take 26).map tokenValue).Nodup →
      ∃ m nt, configure_rotor filename (some f) m0 = .ok (m, nt) ∧ IsPermutation m ∧
        (∀ i : Fin 26, (f.words[i.val]?).map tokenValue = some (m i)) ∧
        (∀ p : Fin 26, nt p = true ↔
          ((p.val : Int) ∈ (f.words.drop 26).map tokenValue ∨
            (f.trailing_blank = true ∧
              f.words.getLast?.map tokenValue = some (p.val : Int))))) := by
  obtain ⟨ws, b⟩ := f
  simp only at hne hnum ⊢
  obtain ⟨last, hlast⟩ : ∃ l, ws.getLast? = some l := by
    cases h : ws.getLast? with
    | none => exact absurd (List.getLast?_eq_none_iff.mp h) hne
    | some l => exact ⟨l, rfl⟩
  have hlastmem : last ∈ ws := List.mem_of_getLast?_eq_some hlast
  have hbs : bodyStrings b ws "" = ws ++ (if b = true then [last] else []) := by
    rw [bodyStrings_numeric b ws "" hne hnum, hlast]
    rfl
  have hnum2 : ∀ t ∈ bodyStrings b ws "", NumericToken t := by
    intro t ht
    rw [hbs] at ht
    simp only [List.mem_append] at ht
    rcases ht with ht | ht
    · exact hnum t ht
    · cases b with
      | false => simp at ht
      | true =>
        simp only [if_true, List.mem_singleton] at ht
        rw [ht]; exact hnum last hlastmem
  obtain ⟨hok, herr⟩ := configure_rotor_result filename ⟨ws, b⟩ m0 hnum2
  simp only [hbs, List.map_append, List.length_append] at hok herr
  have htake : 26 ≤ ws.length →
      (ws.map tokenValue ++ (if b = true then [last] else []).map tokenValue).take 26
        = (ws.take 26).map tokenValue := by
    intro h
    rw [List.take_append_of_le_length (by simp; exact h), List.map_take]
  constructor
  · intro hnot
    apply herr
    rintro ⟨hnd, hlen⟩
    by_cases h26 : 26 ≤ ws.length
    · rw [htake h26] at hnd
      exact hnot ⟨h26, hnd⟩
    · cases b with
      | false => simp at hlen; omega
      | true =>
        simp only [if_true, List.map_cons, List.map_nil, List.length_singleton] at hnd hlen
        rw [List.take_of_length_le (by simp; omega)] at hnd
        have hdis := (List.nodup_append.mp hnd).2.2
        exact hdis (List.mem_map_of_mem _ hlastmem) (List.mem_singleton_self _)
  · intro h26 hnd
    rw [← htake h26] at hnd
    obtain ⟨st1, hinv, hres⟩ := hok hnd (by omega)
    obtain ⟨_, _, hmap, hnotch, hnd1, hrange⟩ := hinv
    have hcell : ∀ i : Fin 26, (ws.map tokenValue)[i.val]? = some (st1.rotor_mapping i) := by
      intro i
      have hi : i.val < ws.length := by have := i.isLt; omega
      have := hmap i (by simp only [List.length_append, List.length_map]; omega)
      rw [List.getElem?_append_left (by simp only [List.length_map]; exact hi)] at this
      exact this
    refine ⟨st1.rotor_mapping, st1.notch, hres, ⟨?_, ?_⟩, ?_, ?_⟩
    · intro i
      have hmem : st1.rotor_mapping i ∈ ws.map tokenValue := List.getElem?_mem (hcell i)
      have := hrange _ (List.mem_append_left _ hmem)
      unfold IsPos; omega
    · intro i k hik
      by_contra hne2
      have hcases : i.val < k.val ∨ k.val < i.val := by
        have : i.val ≠ k.val := fun h => hne2 (Fin.ext h)
        omega
      rw [htake h26, List.map_take] at hnd1
      have hnn := List.nodup_iff_getElem?_ne_getElem?.mp hnd1
      have hti : ∀ x : Fin 26, ((ws.map tokenValue).take 26)[x.val]?
          = some (st1.rotor_mapping x) := by
        intro x
        rw [List.getElem?_take_of_lt x.isLt]
        exact hcell x
      have hl26 : ((ws.map tokenValue).take 26).length = 26 := by
        simp only [List.length_take, List.length_map]; omega
      rcases hcases with h | h
      · exact hnn i.val k.val h (by rw [hl26]; exact k.isLt) (by rw [hti i, hti k, hik])
      · exact hnn k.val i.val h (by rw [hl26]; exact i.isLt) (by rw [hti i, hti k, hik])
    · intro i
      rw [← List.getElem?_map]
      exact hcell i
    · intro p
      rw [hnotch p, List.drop_append_of_le_length (by simp only [List.length_map]; exact h26),
        ← List.map_drop, List.mem_append, hlast]
      cases b with
      | false => simp
      | true =>
        simp only [if_true, List.map_cons, List.map_nil, List.mem_singleton, Option.map_some',
          Option.some.injEq, true_and]
        constructor
        · rintro (h | h)
          · exact Or.inl h
          · exact Or.inr h.symm
        · rintro (h | h)
          · exact Or.inl h
          · exact Or.inr h.symm

/-! ## The loop of `RotorsAssembler::assemble` -/

theorem set_after_filled {α : Type} (filled : List α) (d r : α) (m : Nat) :
    (filled ++ List.replicate (m + 1) d).set filled.length r =
      (filled ++ [r]) ++ List.replicate m d := by
  rw [List.set_append_right _ _ (Nat.le_refl _)]
  simp [List.replicate_succ]

theorem RotorsAssembler.assemble_loop (a : RotorsAssembler) (fs : FileSystem)
    (n : Nat) (ps : List Int) (built : Nat → Rotor) (hnum : a.num_rotors = (n : Int))
    (hb : ∀ j, j < n → ∃ file pos, a.rotor_files[j]? = some file ∧ ps[j]? = some pos ∧
      Rotor.construct fs file pos = .ok (built j)) :
    ∀ k, k ≤ n →
      (List.range k).foldlM (a.assemble_body fs ps) (List.replicate n Rotor.default) =
        .ok ((List.range k).map (fun i => built (n - 1 - i)) ++
          List.replicate (n - k) Rotor.default) := by
  intro k
  induction k with
  | zero => intro _; rfl
  | succ k ih =>
    intro hk
    have hprev := ih (by omega)
    obtain ⟨file, pos, hfile, hposv, hcons⟩ := hb (n - 1 - k) (by omega)
    have hidx : (a.num_rotors - 1 - (k : Int)) = ((n - 1 - k : Nat) : Int) := by
      rw [hnum]; omega
    have hrd1 : readCell a.rotor_files (a.num_rotors - 1 - (k : Int)) = some file := by
      rw [hidx]
      simp only [readCell, Int.toNat_ofNat, hfile]
      simp
    have hrd2 : readCell ps (a.num_rotors - 1 - (k : Int)) = some pos := by
      rw [hidx]
      simp only [readCell, Int.toNat_ofNat, hposv]
      simp
    have hlen : ((List.range k).map fun i => built (n - 1 - i)).length = k := by simp
    have hsplit : n - k = (n - (k + 1)) + 1 := by omega
    have hbody : a.assemble_body fs ps
        ((List.range k).map (fun i => built (n - 1 - i)) ++ List.replicate (n - k) Rotor.default) k
        = .ok ((List.range (k + 1)).map (fun i => built (n - 1 - i)) ++
          List.replicate (n - (k + 1)) Rotor.default) := by
      have hw : writeCell
          ((List.range k).map (fun i => built (n - 1 - i)) ++
            List.replicate (n - k) Rotor.default) k (built (n - 1 - k))
          = some ((List.range (k + 1)).map (fun i => built (n - 1 - i)) ++
            List.replicate (n - (k + 1)) Rotor.default) := by
        have hl : k < ((List.range k).map (fun i => built (n - 1 - i)) ++
            List.replicate (n - k) Rotor.default).length := by
          simp only [List.length_append, hlen, List.length_replicate]; omega
        simp only [writeCell, hl, if_true, Option.some.injEq]
        rw [hsplit]
        have := set_after_filled ((List.range k).map fun i => built (n - 1 - i))
          Rotor.default (built (n - 1 - k)) (n - (k + 1))
        rw [hlen] at this
        rw [this, List.range_succ, List.map_append]
        rfl
      simp only [RotorsAssembler.assemble_body, hrd1, hrd2, hcons, hw, arrayAccess, bind,
        Except.bind]
    rw [List.range_succ, List.foldlM_append, hprev]
    simp only [bind, Except.bind, List.foldlM_cons, List.foldlM_nil, hbody, pure, Except.pure]
    rw [List.range_succ]

/-! ## The claims on the loader, the assembler and the rotor formulas -/

/-- C11, evaluated on two accepted files.  `map_and_count_pairs` returns
without error on the reflector file `I.rf` holding `0 00 2 3 ... 24 25`, whose
first pair maps 0 to itself, and on the plugboard file `plugboard.txt` holding
`0 1 0 2`, in which 0 appears in two pairs; `get_plugboard_mapping` accepts the
second file too. -/
theorem map_and_count_pairs_accepts_bad_pairs :
    (∃ m, map_and_count_pairs "I.rf" selfPairFile = .ok (26, m) ∧ m 0 = 65) ∧
    (∃ m, map_and_count_pairs "plugboard.txt" repeatedValueFile = .ok (4, m) ∧
      m 0 = 67 ∧ m 1 = 65 ∧ m 2 = 65) ∧
    (∃ m, get_plugboard_mapping "plugboard.txt" repeatedValueFile = .ok m) :=
  ⟨⟨_, rfl, by decide⟩, ⟨_, rfl, by decide, by decide, by decide⟩, ⟨_, rfl⟩⟩

/-- C12, evaluated on an accepted file.  `get_plugboard_mapping` returns
without error on the file `plugboard.txt` holding `0 1 0 2`; the pair `0 1` is
listed, yet cell 0 holds `'C'` and not `'B'`, cells 1 and 2 both hold `'A'`,
and the table is not an involution: the cell of the letter in cell 1 holds
`'C'`, not `'B'`. -/
theorem get_plugboard_mapping_accepts_repeated_value :
    ∃ m, get_plugboard_mapping "plugboard.txt" repeatedValueFile = .ok m ∧
      m 0 = 67 ∧ m 1 = 65 ∧ m 2 = 65 ∧ index26 m (m 1 - 65) = some 67 ∧
      ¬ IsInvolution m :=
  ⟨_, rfl, by decide, by decide, by decide, by decide, by decide⟩

/-- C13, evaluated on the rotor file with no entry: `configure_rotor` does not
fail with `INVALID_ROTOR_MAPPING`; the read loop runs its body once on the
empty string and `stoi` throws `std::invalid_argument`. -/
theorem configure_rotor_empty_file :
    configure_rotor "I.rot" (some rotorFileEmpty) (fun _ => 0)
      = .error Err.STD_INVALID_ARGUMENT :=
  rfl

/-- C14, evaluated on the rotor file with exactly 26 entries followed by a
newline: `configure_rotor` accepts it and sets a notch at position 9, the value
of the last entry; without the newline the same entries give no notch. -/
theorem configure_rotor_trailing_newline :
    (∃ m nt, configure_rotor "I.rot" (some rotorFileNewline) (fun _ => 0) = .ok (m, nt) ∧
      nt 9 = true) ∧
    (∃ m nt, configure_rotor "I.rot" (some ⟨wiringWordsI, false⟩) (fun _ => 0) = .ok (m, nt) ∧
      ∀ p, nt p = false) :=
  ⟨⟨_, _, rfl, by decide⟩, ⟨_, _, rfl, by decide⟩⟩

/-- C16. Assembly order: with no rotor, `RotorsAssembler::assemble` produces no
rotors; with `n >= 1` rotor files and a position file of `n` numeric tokens,
both supplied leftmost first, where file `j` with the value of token `j` builds
the rotor `built j`, it produces the stack whose index `i` holds
`built (n - 1 - i)`: the rotor of definition `n - 1 - i` with start position
`n - 1 - i`, so index 0 holds the last-supplied rotor with its own position. -/
theorem RotorsAssembler.assemble_order (a : RotorsAssembler) (fs : FileSystem) :
    (a.num_rotors = 0 → a.assemble fs = .ok []) ∧
    (∀ (n : Nat) (pieces : List String) (built : Nat → Rotor),
      1 ≤ n → a.num_rotors = (n : Int) → a.rotor_files.length = n →
      fs.pieces a.pos_file = some pieces → (∀ t ∈ tokensOf pieces, NumericToken t) →
      (tokensOf pieces).length = n →
      (∀ j, j < n → ∃ file t, a.rotor_files[j]? = some file ∧
        (tokensOf pieces)[j]? = some t ∧
        Rotor.construct fs file (tokenValue t) = .ok (built j)) →
      a.assemble fs = .ok ((List.range n).map fun i => built (n - 1 - i))) := by
  constructor
  · intro h0
    simp only [RotorsAssembler.assemble, h0, ne_eq, not_true_eq_false, if_false, pure,
      Except.pure]
  · intro n pieces built hn hnum _ hpieces htok hcount hb
    have hne : a.num_rotors ≠ 0 := by rw [hnum]; omega
    obtain ⟨st1, hrun, hc, _, _, hvals⟩ := get_start_positions_loop a.pos_file pieces
      { string_count := 0, rotor_positions := List.replicate n (0 : Int) } htok
    simp only [Nat.zero_add, List.length_replicate] at hc hvals
    have hgsp : get_start_positions a.pos_file (fs.pieces a.pos_file) a.num_rotors
        (List.replicate a.num_rotors.toNat (0 : Int)) = .ok st1.rotor_positions := by
      have hlt : ¬ ((st1.string_count : Int) < (n : Int)) := by omega
      simp only [get_start_positions, hpieces, hnum, Int.toNat_ofNat, hrun, bind, Except.bind,
        hlt, if_false, pure, Except.pure]
    have hb2 : ∀ j, j < n → ∃ file pos, a.rotor_files[j]? = some file ∧
        st1.rotor_positions[j]? = some pos ∧ Rotor.construct fs file pos = .ok (built j) := by
      intro j hj
      obtain ⟨file, t, hf, ht, hc2⟩ := hb j hj
      exact ⟨file, tokenValue t, hf, hvals j t ht hj, hc2⟩
    have hloop := RotorsAssembler.assemble_loop a fs n st1.rotor_positions built hnum hb2 n
      (Nat.le_refl _)
    simp only [Nat.sub_self, List.replicate_zero, List.append_nil] at hloop
    simp only [RotorsAssembler.assemble, hne, ne_eq, not_false_eq_true, if_true, hgsp, bind,
      Except.bind]
    rw [hnum, Int.toNat_ofNat]
    exact hloop

/-- Witness of C16 on the demonstration disk: two rotor files and the
positions 3 and 7 give the stack with positions 7 and 3. -/
theorem RotorsAssembler.assemble_order_witness :
    1 ≤ 2 ∧ demoAssembler.num_rotors = ((2 : Nat) : Int) ∧
    demoAssembler.rotor_files.length = 2 ∧
    demoDisk.pieces demoAssembler.pos_file = some ["3", "7\n"] ∧
    (∀ t ∈ tokensOf ["3", "7\n"], NumericToken t) ∧ (tokensOf ["3", "7\n"]).length = 2 ∧
    (∀ j, j < 2 → ∃ file t, demoAssembler.rotor_files[j]? = some file ∧
      (tokensOf ["3", "7\n"])[j]? = some t ∧
      Rotor.construct demoDisk file (tokenValue t) = .ok (demoBuilt j)) ∧
    demoAssembler.assemble demoDisk = .ok ((List.range 2).map fun i => demoBuilt (2 - 1 - i)) ∧
    ((List.range 2).map fun i => (demoBuilt (2 - 1 - i)).start_pos) = [7, 3] :=
  have hb : ∀ j, j < 2 → ∃ file t, demoAssembler.rotor_files[j]? = some file ∧
      (tokensOf ["3", "7\n"])[j]? = some t ∧
      Rotor.construct demoDisk file (tokenValue t) = .ok (demoBuilt j) := by
    intro j hj
    interval_cases j
    · exact ⟨"I.rot", "3", rfl, rfl, rfl⟩
    · exact ⟨"I.rot", "7", rfl, rfl, rfl⟩
  ⟨by decide, rfl, rfl, rfl, by decide, by decide, hb,
    (RotorsAssembler.assemble_order demoAssembler demoDisk).2 2 ["3", "7\n"] demoBuilt
      (by decide) rfl rfl rfl (by decide) (by decide) hb,
    by decide⟩

/-- C17, evaluated on the all-digit token `2147483648`, whose value is greater
than 25: `check_string` does not raise `INVALID_INDEX`; `stoi` throws
`std::out_of_range`.  The token `26` does raise `INVALID_INDEX`. -/
theorem check_string_large_value :
    check_string "2147483648" "I.rot" = .error Err.STD_OUT_OF_RANGE ∧
    check_string "26" "I.rot" = .error Err.INVALID_INDEX :=
  ⟨rfl, rfl⟩

/-- C18. `Rotor::forward_map` equals its reference formula: for a mapping with
values in `[0,26)`, a start position in `[0,26)` and an input position in
`[0,26)`, the call returns
`(mapping[(input_pos + start_pos) mod 26] - start_pos) mod 26` with the
non-negative mod, a position in `[0,26)`.  (The call yields only this value:
the source function assigns no member of the rotor.) -/
theorem Rotor.forward_map_formula (r : Rotor) (hm : ∀ i, IsPos (r.mapping i))
    (hs : IsPos r.start_pos) (input_pos : Int) (hx : IsPos input_pos) :
    r.forward_map input_pos = r.forward_map_reference input_pos ∧
      ∃ y, r.forward_map input_pos = some y ∧ IsPos y := by
  obtain ⟨j, hj, hf⟩ := r.forward_map_eq hm hs input_pos hx
  have hidx : index26 r.mapping ((input_pos + r.start_pos) % 26) = some (r.mapping j) := by
    rw [← hj]; exact index26_pos r.mapping j
  refine ⟨?_, _, hf, ?_⟩
  · rw [hf, Rotor.forward_map_reference, hidx]
    rfl
  · unfold IsPos; omega

/-- Witness of C18 on rotor III at start position 20 and input position 11. -/
theorem Rotor.forward_map_formula_witness :
    (∀ i, IsPos ((rotorIII 20).mapping i)) ∧ IsPos (rotorIII 20).start_pos ∧ IsPos 11 ∧
    ((rotorIII 20).forward_map 11 = (rotorIII 20).forward_map_reference 11 ∧
      ∃ y, (rotorIII 20).forward_map 11 = some y ∧ IsPos y) :=
  ⟨by decide, by decide, by decide,
    Rotor.forward_map_formula (rotorIII 20) (by decide) (by decide) 11 (by decide)⟩

/-- C19. `Rotor::backward_map` equals its reference formula: for a permutation
mapping, a start position in `[0,26)` and an input position in `[0,26)`, there
is exactly one index `i < 26` with
`mapping[i] == (input_pos + start_pos) mod 26`; the linear search stops at it,
and the call returns `(i - start_pos) mod 26` with the non-negative mod, a
position in `[0,26)`. -/
theorem Rotor.backward_map_formula (r : Rotor) (hp : IsPermutation r.mapping)
    (hs : IsPos r.start_pos) (input_pos : Int) (hx : IsPos input_pos) :
    ∃ i : Fin 26, r.mapping i = (input_pos + r.start_pos) % 26 ∧
      (∀ k : Fin 26, r.mapping k = (input_pos + r.start_pos) % 26 → k = i) ∧
      Rotor.backward_loop r.mapping ((input_pos + r.start_pos).tmod 26) 27 0
        = some (i.val : Int) ∧
      r.backward_map input_pos = some (((i.val : Int) - r.start_pos) % 26) ∧
      IsPos (((i.val : Int) - r.start_pos) % 26) := by
  have hs2 := hs
  have hx2 := hx
  unfold IsPos at hs2 hx2
  have hmod : (input_pos + r.start_pos).tmod 26 = (input_pos + r.start_pos) % 26 :=
    Int.tmod_eq_emod (by omega) (by decide)
  obtain ⟨i, hi⟩ := hp.surj ((input_pos + r.start_pos) % 26) (by unfold IsPos; omega)
  have hfind := Rotor.backward_loop_find r.mapping _ i hi
    (fun k hk h => absurd (hp.2 (h.trans hi.symm)) (Fin.ne_of_lt hk)) 27 0 (by omega) (by omega)
  simp only [Nat.cast_zero] at hfind
  refine ⟨i, hi, fun k hk => hp.2 (hk.trans hi.symm), ?_, r.backward_map_eq hp hs _ hx i hi, ?_⟩
  · rw [hmod]; exact hfind
  · unfold IsPos; omega

/-- Witness of C19 on rotor I at start position 13 and input position 25. -/
theorem Rotor.backward_map_formula_witness :
    IsPermutation (rotorI 13).mapping ∧ IsPos (rotorI 13).start_pos ∧ IsPos 25 ∧
    ∃ i : Fin 26, (rotorI 13).mapping i = (25 + (rotorI 13).start_pos) % 26 ∧
      (∀ k : Fin 26, (rotorI 13).mapping k = (25 + (rotorI 13).start_pos) % 26 → k = i) ∧
      Rotor.backward_loop (rotorI 13).mapping ((25 + (rotorI 13).start_pos).tmod 26) 27 0
        = some (i.val : Int) ∧
      (rotorI 13).backward_map 25 = some (((i.val : Int) - (rotorI 13).start_pos) % 26) ∧
      IsPos (((i.val : Int) - (rotorI 13).start_pos) % 26) :=
  ⟨by decide, by decide, by decide,
    Rotor.backward_map_formula (rotorI 13) (by decide) (by decide) 25 (by decide)⟩

/-- C20. No letter encrypts to itself: for a machine whose plugboard table is
an involution, whose reflector table is a fixed-point-free involution, whose
rotor wirings are permutations of `[0,26)` and whose start positions lie in
`[0,26)`, with any number of rotors, and for a letter `L` in `'A'..'Z'`,
`press_key(L)` returns a letter different from `L`. -/
theorem Enigma.press_key_never_self (e : Enigma)
    (hwf : e.num_rotors = (e.rotors.length : Int))
    (hpb : IsInvolution e.pb.mapping) (hrf : IsInvolution e.rf.mapping)
    (hnf : NoFixedPoint e.rf.mapping) (hv : RotorsValid e.rotors)
    (L : Int) (hL : IsLetter L) :
    ∃ C e1, e.press_key L = some (C, e1) ∧ C ≠ L := by
  have hpos : ∀ r ∈ e.rotors, IsPos r.start_pos := fun r hr => (hv r hr).2
  have hsv := stepping_valid e.rotors hv
  obtain ⟨j, hj, h0⟩ := e.pb.forward_lookup L hL
  have hp0 := letter_sub_pos _ (hpb j).1
  obtain ⟨p1, h1, hp1, _⟩ := forward_chain_round _ hsv _ hp0
  obtain ⟨k, hk, h2⟩ := e.rf.reflect_lookup p1 hp1
  obtain ⟨p3, h3, hp3, h3f⟩ := backward_chain_round _ hsv _ (letter_sub_pos _ (hrf k).1)
  obtain ⟨l, hl, h4⟩ := e.pb.backward_lookup p3 hp3
  have hproc : process e.pb e.rf e.rotors L = some (e.pb.mapping l, stepping e.rotors) := by
    simp [process, h0, h1, h2, h3, h4]
  refine ⟨e.pb.mapping l, { e with rotors := stepping e.rotors }, ?_, ?_⟩
  · rw [Enigma.press_key_eq e hwf hpos, hproc]
    rfl
  · intro hself
    have hinv := (hpb l).2
    rw [hself, ← hj, index26_pos] at hinv
    simp only [Option.some.injEq] at hinv
    have h03 : e.pb.mapping j - 65 = p3 := by omega
    rw [h03] at h1
    rw [h1] at h3f
    simp only [Option.some.injEq] at h3f
    have := hnf k
    omega

/-- Witness of C20 on the three-rotor machine and the letter `'M'`. -/
theorem Enigma.press_key_never_self_witness :
    demoMachine.num_rotors = (demoMachine.rotors.length : Int) ∧
    IsInvolution demoMachine.pb.mapping ∧ IsInvolution demoMachine.rf.mapping ∧
    NoFixedPoint demoMachine.rf.mapping ∧ RotorsValid demoMachine.rotors ∧ IsLetter 77 ∧
    ∃ C e1, demoMachine.press_key 77 = some (C, e1) ∧ C ≠ 77 :=
  ⟨by decide, by decide, by decide, by decide, by decide, by decide,
    Enigma.press_key_never_self demoMachine (by decide) (by decide) (by decide) (by decide)
      (by decide) 77 (by decide)⟩

/-! ## Messages -/

theorem Enigma.press_key_state (e : Enigma) (input out : Int) (e1 : Enigma)
    (h : e.press_key input = some (out, e1)) :
    ∃ rs, (if e.num_rotors ≠ 0 then e.step else some e.rotors) = some rs ∧
      e1 = { e with rotors := rs } := by
  unfold Enigma.press_key at h
  cases hs : (if e.num_rotors ≠ 0 then e.step else pure e.rotors) with
  | none => rw [hs] at h; simp at h
  | some rs =>
    rw [hs] at h
    simp only [Option.bind_eq_bind, Option.some_bind, Option.bind_eq_some, pure,
      Option.some.injEq, Prod.mk.injEq] at h
    obtain ⟨_, _, _, _, _, he⟩ := h
    exact ⟨rs, rfl, he.symm⟩

theorem Enigma.press_key_pair (e : Enigma) (hwf : e.num_rotors = (e.rotors.length : Int))
    (hpb : IsInvolution e.pb.mapping) (hrf : IsInvolution e.rf.mapping)
    (hv : RotorsValid e.rotors) (L : Int) (hL : IsLetter L) :
    ∃ C, IsLetter C ∧
      e.press_key L = some (C, { e with rotors := stepping e.rotors }) ∧
      e.press_key C = some (L, { e with rotors := stepping e.rotors }) := by
  have hpos : ∀ r ∈ e.rotors, IsPos r.start_pos := fun r hr => (hv r hr).2
  obtain ⟨C, hC, h1, h2⟩ := process_reciprocal e.pb e.rf e.rotors hpb hrf hv L hL
  refine ⟨C, hC, ?_, ?_⟩
  · rw [Enigma.press_key_eq e hwf hpos, h1]; rfl
  · rw [Enigma.press_key_eq e hwf hpos, h2]; rfl

theorem check_input_letter (c : Int) (h : IsLetter c) : check_input c = .ok () := by
  unfold IsLetter at h
  have : ¬ (c < 65 ∨ c > 90) := by omega
  simp only [check_input, this, if_false, pure, Except.pure]

theorem main_loop_round (m : List Int) :
    ∀ e : Enigma, e.num_rotors = (e.rotors.length : Int) → IsInvolution e.pb.mapping →
      IsInvolution e.rf.mapping → RotorsValid e.rotors → (∀ x ∈ m, IsLetter x) →
      ∃ c e1, main_loop e m = (c, .ok e1) ∧ c.length = m.length ∧ (∀ x ∈ c, IsLetter x) ∧
        main_loop e c = (m, .ok e1) := by
  induction m with
  | nil => intro e _ _ _ _ _; exact ⟨[], e, rfl, rfl, by simp, rfl⟩
  | cons L rest ih =>
    intro e hwf hpb hrf hv hm
    have hL : IsLetter L := hm L (List.mem_cons_self _ _)
    obtain ⟨C, hC, h1, h2⟩ := Enigma.press_key_pair e hwf hpb hrf hv L hL
    have hwf1 : ({ e with rotors := stepping e.rotors } : Enigma).num_rotors
        = (({ e with rotors := stepping e.rotors } : Enigma).rotors.length : Int) := by
      simp [stepping_length, hwf]
    obtain ⟨c, e2, hrun, hlen, hlet, hback⟩ := ih { e with rotors := stepping e.rotors } hwf1
      hpb hrf (stepping_valid e.rotors hv) (fun x hx => hm x (List.mem_cons_of_mem _ hx))
    refine ⟨C :: c, e2, ?_, by simp [hlen], ?_, ?_⟩
    · simp only [main_loop, check_input_letter L hL, h1, hrun]
    · intro x hx
      simp only [List.mem_cons] at hx
      rcases hx with hx | hx
      · rw [hx]; exact hC
      · exact hlet x hx
    · simp only [main_loop, check_input_letter C hC, h2, hback]

/-- C21. Message-level reciprocity: the machine left by a returning
`press_key` is the same whatever letter is pressed; and for a machine whose
plugboard table is an involution, whose reflector table is a fixed-point-free
involution, whose rotor wirings are permutations of `[0,26)` and whose start
positions lie in `[0,26)`, and for a message `m` over `'A'..'Z'`, the loop of
`main` run from state `S` prints a ciphertext `c` of the same length over
`'A'..'Z'` without error, and run again from `S` on `c` it prints `m`,
character by character, and ends in the same state. -/
theorem Enigma.message_reciprocity (e : Enigma)
    (hwf : e.num_rotors = (e.rotors.length : Int))
    (hpb : IsInvolution e.pb.mapping) (hrf : IsInvolution e.rf.mapping)
    (_hnf : NoFixedPoint e.rf.mapping) (hv : RotorsValid e.rotors)
    (m : List Int) (hm : ∀ x ∈ m, IsLetter x) :
    (∀ (L1 L2 out1 out2 : Int) (e1 e2 : Enigma),
      e.press_key L1 = some (out1, e1) → e.press_key L2 = some (out2, e2) → e1 = e2) ∧
    ∃ c e1, main_loop e m = (c, .ok e1) ∧ c.length = m.length ∧ (∀ x ∈ c, IsLetter x) ∧
      main_loop e c = (m, .ok e1) := by
  refine ⟨?_, main_loop_round m e hwf hpb hrf hv hm⟩
  intro L1 L2 out1 out2 e1 e2 h1 h2
  obtain ⟨rs1, hs1, he1⟩ := Enigma.press_key_state e L1 out1 e1 h1
  obtain ⟨rs2, hs2, he2⟩ := Enigma.press_key_state e L2 out2 e2 h2
  rw [hs1] at hs2
  simp only [Option.some.injEq] at hs2
  rw [he1, he2, hs2]

/-- Witness of C21 on the three-rotor machine and the message HELLO. -/
theorem Enigma.message_reciprocity_witness :
    demoMachine.num_rotors = (demoMachine.rotors.length : Int) ∧
    IsInvolution demoMachine.pb.mapping ∧ IsInvolution demoMachine.rf.mapping ∧
    NoFixedPoint demoMachine.rf.mapping ∧ RotorsValid demoMachine.rotors ∧
    (∀ x ∈ helloMessage, IsLetter x) ∧
    ((∀ (L1 L2 out1 out2 : Int) (e1 e2 : Enigma),
      demoMachine.press_key L1 = some (out1, e1) →
        demoMachine.press_key L2 = some (out2, e2) → e1 = e2) ∧
    ∃ c e1, main_loop demoMachine helloMessage = (c, .ok e1) ∧
      c.length = helloMessage.length ∧ (∀ x ∈ c, IsLetter x) ∧
      main_loop demoMachine c = (helloMessage, .ok e1)) :=
  ⟨by decide, by decide, by decide, by decide, by decide, by decide,
    Enigma.message_reciprocity demoMachine (by decide) (by decide) (by decide) (by decide)
      (by decide) helloMessage (by decide)⟩
end EnigmaSim
